import Mathlib

/-!
# PolicyLLM — verification of the policy-governance core

Shallow embedding of the policy-logic pipeline of the PolicyLLM repository
(`src/Enforcement` and `src/Validation`) together with theorems settling the
behavioural claims about it.

Modelling conventions:
* Python floats are modelled as rationals (`ℚ`); all the score arithmetic and
  threshold comparisons exercised here are exact at these values.
* Python dicts that are used as ordered key/value stores are modelled as
  association lists (`List (String × _)`) with first-match lookup, which is
  how the source consults them.
* `None`-able Python values are `Option`; a missing dict key with a `.get`
  default is modelled by applying the same default.
-/

namespace PolicyLLM

/-- Heterogeneous rule/fact values (`bool | int | float | str`), as the tagged
variant the pipeline passes around in `value` fields. -/
inductive Value where
  | bool (b : Bool)
  | int (n : Int)
  | float (q : ℚ)
  | str (s : String)
deriving DecidableEq, Repr

/-- The schema type string a `Value` corresponds to (`float` values map to the
schema type `"float"`, strings to `"enum"`), mirroring
`_infer_variable_type`'s `isinstance` fallback ordering. -/
def Value.typeName : Value → String
  | .bool _ => "bool"
  | .int _ => "int"
  | .float _ => "float"
  | .str _ => "enum"

/-- First-match lookup in an association list: the access pattern used for the
Python dicts of the source (`d[k]` / `d.get(k)`). -/
def alookup {α : Type} (l : List (String × α)) (k : String) : Option α :=
  (l.find? (fun p => p.1 = k)).map (·.2)

/-- Python `bool(s)` for an optional string: `None` and `""` are falsy. -/
def truthyStr : Option String → Bool
  | none => false
  | some s => s ≠ ""

/-- `pat in s` on character lists: some suffix of `s` starts with `pat`. -/
def lcContains (s pat : List Char) : Bool :=
  match s with
  | [] => pat.isEmpty
  | _ :: rest => pat.isPrefixOf s || lcContains rest pat

/-- Python's substring test `pat in s`. -/
def strContains (s pat : String) : Bool :=
  lcContains s.data pat.data

/-- Python `s.lower()` (ASCII case folding, which is all the pipeline's
tokens use). -/
def pyToLower (s : String) : String :=
  ⟨s.data.map Char.toLower⟩

/-- Python `s.replace("_", " ")`. -/
def pyUnderscoreToSpace (s : String) : String :=
  ⟨s.data.map (fun c => if c = '_' then ' ' else c)⟩

/-- Python `s.startswith(pre)`. -/
def pyStartsWith (s pre : String) : Bool :=
  pre.data.isPrefixOf s.data

/-- Python `s.endswith(suf)`. -/
def pyEndsWith (s suf : String) : Bool :=
  suf.data.isSuffixOf s.data

/-- Python slicing `s[n:]`. -/
def pyDrop (s : String) (n : Nat) : String :=
  ⟨s.data.drop n⟩

/-- Python slicing `s[:-n]`. -/
def pyDropRight (s : String) (n : Nat) : String :=
  ⟨s.data.take (s.data.length - n)⟩

/-- Python `s.strip()`: remove leading and trailing whitespace. -/
def pyStrip (s : String) : String :=
  ⟨((s.data.dropWhile Char.isWhitespace).reverse.dropWhile
      Char.isWhitespace).reverse⟩

/-! ## Enforcement/scoring.py — compliance score and action routing -/

/-- `RegexResult` (schemas.py): the hard-gate check outcome. -/
structure RegexResult where
  passed : Bool
  flags : List String
  score : ℚ
deriving DecidableEq, Repr

/-- An SMT violation record: the dict keys read by the scorer
(`policy_id`, `violation_type`); other keys carried as `info`. -/
structure Violation where
  policy_id : String
  violation_type : String
  info : String
deriving DecidableEq, Repr

/-- `SMTResult` (schemas.py). -/
structure SMTResult where
  passed : Bool
  violations : List Violation
  score : ℚ
deriving DecidableEq, Repr

/-- `JudgeResult` (schemas.py); only the score is read by the scorer. -/
structure JudgeResult where
  score : ℚ
  issues : List String
deriving DecidableEq, Repr

/-- `CoverageResult` (schemas.py); only the score is read by the scorer. -/
structure CoverageResult where
  score : ℚ
  nodes_required : List String
  nodes_covered : List String
deriving DecidableEq, Repr

/-- `PostGenReport` (schemas.py): the four verifier sub-results. -/
structure PostGenReport where
  regex_result : RegexResult
  smt_result : SMTResult
  judge_result : JudgeResult
  coverage_result : CoverageResult
deriving DecidableEq, Repr

/-- `ComplianceAction` (schemas.py). -/
inductive ComplianceAction where
  | pass
  | auto_correct
  | regenerate
  | escalate
deriving DecidableEq, Repr

/-- Weight `W_SMT = 0.60` (scoring.py). -/
def W_SMT : ℚ := 60 / 100
/-- Weight `W_JUDGE = 0.30` (scoring.py). -/
def W_JUDGE : ℚ := 30 / 100
/-- Weight `W_COVERAGE = 0.10` (scoring.py). -/
def W_COVERAGE : ℚ := 10 / 100

/-- `THRESHOLD_PASS = 0.95` (scoring.py). -/
def THRESHOLD_PASS : ℚ := 95 / 100
/-- `THRESHOLD_AUTO_CORRECT = 0.85` (scoring.py). -/
def THRESHOLD_AUTO_CORRECT : ℚ := 85 / 100
/-- `THRESHOLD_REGENERATE = 0.70` (scoring.py). -/
def THRESHOLD_REGENERATE : ℚ := 70 / 100

/-- `compute_compliance_score` (scoring.py): weighted sum of the SMT, judge
and coverage scores; the regex result is not consulted. -/
def compute_compliance_score (report : PostGenReport) : ℚ :=
  W_SMT * report.smt_result.score
    + W_JUDGE * report.judge_result.score
    + W_COVERAGE * report.coverage_result.score

/-- `determine_action` (scoring.py): regex hard gate, then threshold table. -/
def determine_action (score : ℚ) (report : PostGenReport) : ComplianceAction :=
  if ¬ report.regex_result.passed then ComplianceAction.escalate
  else if score ≥ THRESHOLD_PASS then ComplianceAction.pass
  else if score ≥ THRESHOLD_AUTO_CORRECT then ComplianceAction.auto_correct
  else if score ≥ THRESHOLD_REGENERATE then ComplianceAction.regenerate
  else ComplianceAction.escalate

end PolicyLLM

namespace PolicyLLM

/-! ## Enforcement/audit.py — hash-chained JSONL audit log

`AuditLogger.log` serialises the entry to its canonical JSON, hashes
`(prev_hash or "") + canonical_json` with SHA-256 and writes the record
`{entry_hash, prev_hash, ...entry fields...}`; `verify_integrity` replays the
file, recomputing each hash from the stored fields.  The embedding keeps the
canonical JSON of an entry as an opaque `String` and abstracts SHA-256 as a
hash function `H : String → String` (the tamper-detection claims additionally
assume `H` is injective — the idealisation under which a hash chain is
tamper-evident).  A stored line is modelled as the parsed record triple. -/

/-- One stored audit line: `entry_hash`, `prev_hash` (null for the first
record of a logger run) and the entry's canonical JSON. -/
structure AuditRecord where
  entry_hash : String
  prev_hash : Option String
  entry : String
deriving DecidableEq, Repr

/-- `AuditLogger.log`, one step: hash of `(prev or "") ++ entry` becomes the
record's `entry_hash`, and the logger's `_prev_hash` advances to it. -/
def logRecord (H : String → String) (prev : Option String) (entry : String) :
    AuditRecord :=
  { entry_hash := H ((prev.getD "") ++ entry), prev_hash := prev, entry := entry }

/-- Repeatedly appending entries through one `AuditLogger` whose `_prev_hash`
currently holds `prev` (a fresh instance has `prev = none`). -/
def logChain (H : String → String) (prev : Option String) :
    List String → List AuditRecord
  | [] => []
  | e :: es =>
      let r := logRecord H prev e
      r :: logChain H (some r.entry_hash) es

/-- The replay loop of `AuditLogger.verify_integrity`, threading the previous
stored hash: checks the stored `prev_hash` link, then the recomputed
`SHA-256((prev or "") + canonical_json)` against the stored `entry_hash`. -/
def verifyFrom (H : String → String) (prev : Option String) :
    List AuditRecord → Bool
  | [] => true
  | r :: rs =>
      if r.prev_hash ≠ prev then false
      else if H ((prev.getD "") ++ r.entry) ≠ r.entry_hash then false
      else verifyFrom H (some r.entry_hash) rs

/-- `AuditLogger.verify_integrity`: replay from the start of the file. -/
def verify_integrity (H : String → String) (records : List AuditRecord) : Bool :=
  verifyFrom H none records

/-- A single-byte tamper on a stored line decodes to a record differing from
the original in exactly one of its three components (a byte flip cannot both
change the entry JSON and rewrite the stored hash to match). -/
def OneFieldChanged (r r' : AuditRecord) : Prop :=
  (r'.entry_hash ≠ r.entry_hash ∧ r'.prev_hash = r.prev_hash ∧ r'.entry = r.entry)
  ∨ (r'.entry_hash = r.entry_hash ∧ r'.prev_hash ≠ r.prev_hash ∧ r'.entry = r.entry)
  ∨ (r'.entry_hash = r.entry_hash ∧ r'.prev_hash = r.prev_hash ∧ r'.entry ≠ r.entry)

lemma logChain_length (H : String → String) :
    ∀ (es : List String) (prev : Option String),
      (logChain H prev es).length = es.length := by
  intro es
  induction es with
  | nil => intro prev; rfl
  | cons e es ih => intro prev; simp [logChain, ih]

lemma logChain_get_hash (H : String → String) :
    ∀ (es : List String) (prev : Option String) (i : Nat)
      (h : i < (logChain H prev es).length),
      ((logChain H prev es).get ⟨i, h⟩).entry_hash =
        H (((((logChain H prev es).get ⟨i, h⟩).prev_hash).getD "")
            ++ ((logChain H prev es).get ⟨i, h⟩).entry) := by
  intro es
  induction es with
  | nil => intro prev i h; simp [logChain] at h
  | cons e es ih =>
      intro prev i h
      match i with
      | 0 => simp [logChain, logRecord]
      | Nat.succ j =>
          simp only [logChain, List.get_cons_succ]
          exact ih _ j _

lemma logChain_get_zero_prev (H : String → String) (es : List String)
    (prev : Option String) (h : 0 < (logChain H prev es).length) :
    ((logChain H prev es).get ⟨0, h⟩).prev_hash = prev := by
  match es with
  | [] => simp [logChain] at h
  | e :: es => simp [logChain, logRecord]

lemma logChain_get_succ_prev (H : String → String) :
    ∀ (es : List String) (prev : Option String) (i : Nat)
      (h : i + 1 < (logChain H prev es).length)
      (h2 : i < (logChain H prev es).length),
      ((logChain H prev es).get ⟨i + 1, h⟩).prev_hash =
        some (((logChain H prev es).get ⟨i, h2⟩).entry_hash) := by
  intro es
  induction es with
  | nil => intro prev i h h2; simp [logChain] at h
  | cons e es ih =>
      intro prev i h h2
      match i with
      | 0 =>
          simp only [logChain, List.get_cons_succ, List.get_cons_zero]
          have h3 : 0 < (logChain H (some (logRecord H prev e).entry_hash) es).length := by
            simpa [logChain] using h
          exact logChain_get_zero_prev H es _ h3
      | Nat.succ j =>
          simp only [logChain, List.get_cons_succ]
          exact ih _ j _ _

lemma verifyFrom_logChain (H : String → String) :
    ∀ (es : List String) (prev : Option String),
      verifyFrom H prev (logChain H prev es) = true := by
  intro es
  induction es with
  | nil => intro prev; rfl
  | cons e es ih =>
      intro prev
      simp only [logChain, verifyFrom, logRecord]
      simp [ih]

lemma string_append_left_cancel {p a b : String} (h : p ++ a = p ++ b) :
    a = b := by
  have hd : p.data ++ a.data = p.data ++ b.data := by
    have := congrArg String.data h
    simpa [String.data_append] using this
  have hab : a.data = b.data := List.append_cancel_left hd
  cases a; cases b; exact congrArg String.mk hab

lemma verifyFrom_set_mutated (H : String → String) (hinj : Function.Injective H) :
    ∀ (es : List String) (prev : Option String) (i : Nat)
      (h : i < (logChain H prev es).length) (r' : AuditRecord),
      OneFieldChanged ((logChain H prev es).get ⟨i, h⟩) r' →
      verifyFrom H prev ((logChain H prev es).set i r') = false := by
  intro es
  induction es with
  | nil => intro prev i h r' _; simp [logChain] at h
  | cons e es ih =>
      intro prev i h r' hch
      match i with
      | 0 =>
          simp only [logChain, List.set]
          have hget : ((logChain H prev (e :: es)).get ⟨0, h⟩) = logRecord H prev e := by
            simp [logChain]
          rw [hget] at hch
          rcases hch with ⟨hh, hp, he⟩ | ⟨hh, hp, he⟩ | ⟨hh, hp, he⟩
          · -- entry_hash mutated: recomputed hash no longer matches
            have hp2 : r'.prev_hash = prev := by simpa [logRecord] using hp
            have he2 : r'.entry = e := by simpa [logRecord] using he
            have hh2 : r'.entry_hash ≠ H ((prev.getD "") ++ e) := by
              simpa [logRecord] using hh
            simp only [verifyFrom]
            rw [if_neg (by simp [hp2]), if_pos (by rw [he2]; exact Ne.symm hh2)]
          · -- prev_hash mutated: the stored link breaks immediately
            have hp2 : r'.prev_hash ≠ prev := by simpa [logRecord] using hp
            simp only [verifyFrom]
            rw [if_pos hp2]
          · -- entry mutated: injectivity of the hash exposes the change
            have hp2 : r'.prev_hash = prev := by simpa [logRecord] using hp
            have hh2 : r'.entry_hash = H ((prev.getD "") ++ e) := by
              simpa [logRecord] using hh
            have he2 : r'.entry ≠ e := by simpa [logRecord] using he
            simp only [verifyFrom]
            rw [if_neg (by simp [hp2]), if_pos ?hcond]
            case hcond =>
              rw [hh2]
              intro hc
              exact he2 (string_append_left_cancel (hinj hc))
      | Nat.succ j =>
          simp only [logChain, List.set]
          simp only [logChain, List.get_cons_succ] at hch
          simp only [verifyFrom, logRecord]
          rw [if_neg (by simp), if_neg (by simp)]
          exact ih (some (H ((prev.getD "") ++ e))) j
            (by simpa [logChain, logRecord] using h) r'
            (by simpa [logRecord] using hch)

/-- C3. Appending entries through the audit logger produces, for every
record, `entry_hash = H((prev_hash or "") ++ canonical_json)` with `prev_hash`
equal to the preceding record's `entry_hash` (null for the first record); the
resulting log verifies; and — under the idealisation that the hash `H` is
injective — mutating any single stored component of any record makes
`verify_integrity` return false. -/
theorem audit_hash_chain_integrity (H : String → String) (entries : List String) :
    (∀ i (h : i < (logChain H none entries).length),
        ((logChain H none entries).get ⟨i, h⟩).entry_hash =
          H (((((logChain H none entries).get ⟨i, h⟩).prev_hash).getD "")
              ++ ((logChain H none entries).get ⟨i, h⟩).entry))
    ∧ (∀ h : 0 < (logChain H none entries).length,
        ((logChain H none entries).get ⟨0, h⟩).prev_hash = none)
    ∧ (∀ i (h : i + 1 < (logChain H none entries).length)
        (h2 : i < (logChain H none entries).length),
        ((logChain H none entries).get ⟨i + 1, h⟩).prev_hash =
          some (((logChain H none entries).get ⟨i, h2⟩).entry_hash))
    ∧ verify_integrity H (logChain H none entries) = true
    ∧ (Function.Injective H →
        ∀ i (h : i < (logChain H none entries).length) (r' : AuditRecord),
          OneFieldChanged ((logChain H none entries).get ⟨i, h⟩) r' →
          verify_integrity H ((logChain H none entries).set i r') = false) := by
  refine ⟨fun i h => logChain_get_hash H entries none i h,
    fun h => logChain_get_zero_prev H entries none h,
    fun i h h2 => logChain_get_succ_prev H entries none i h h2,
    verifyFrom_logChain H entries none,
    fun hinj i h r' hch => verifyFrom_set_mutated H hinj entries none i h r' hch⟩

/-- Witness for `audit_hash_chain_integrity`: with the (injective) identity
hash and the two-entry log `["a", "b"]`, the untampered chain verifies, and
replacing the first record's entry `"a"` by `"c"` (one component changed)
makes verification fail. -/
theorem audit_hash_chain_integrity_witness :
    verify_integrity (fun s => s) (logChain (fun s => s) none ["a", "b"]) = true
    ∧ verify_integrity (fun s => s)
        ((logChain (fun s => s) none ["a", "b"]).set 0
          ⟨"a", none, "c"⟩) = false := by
  have h := audit_hash_chain_integrity (fun s => s) ["a", "b"]
  refine ⟨h.2.2.2.1, ?_⟩
  refine h.2.2.2.2 (fun a b hab => hab) 0 (by decide) ⟨"a", none, "c"⟩ ?_
  right; right
  refine ⟨?_, ?_, ?_⟩ <;> decide

lemma verifyFrom_append_none_prev (H : String → String) :
    ∀ (rs : List AuditRecord) (prev : Option String) (r : AuditRecord),
      r.prev_hash = none → (prev.isSome ∨ rs ≠ []) →
      verifyFrom H prev (rs ++ [r]) = false := by
  intro rs
  induction rs with
  | nil =>
      intro prev r hr hor
      rcases hor with hs | hne
      · obtain ⟨p, hp⟩ := Option.isSome_iff_exists.mp hs
        subst hp
        simp only [List.nil_append, verifyFrom]
        rw [if_pos (by simp [hr])]
      · exact absurd rfl hne
  | cons x xs ih =>
      intro prev r hr _
      simp only [List.cons_append, verifyFrom]
      by_cases h1 : x.prev_hash ≠ prev
      · rw [if_pos h1]
      · rw [if_neg h1]
        by_cases h2 : H ((prev.getD "") ++ x.entry) ≠ x.entry_hash
        · rw [if_pos h2]
        · rw [if_neg h2]
          exact ih (some x.entry_hash) r hr (Or.inl rfl)

/-- C10 (implicit). A freshly constructed `AuditLogger` starts at
`_prev_hash = None` regardless of the target file's contents, so the record
it appends carries `prev_hash = null`; consequently, appending one entry
through a fresh logger to a file already holding at least one record makes
`verify_integrity` on the file return false. -/
theorem fresh_logger_append_invalidates (H : String → String)
    (existing : List AuditRecord) (entry : String) :
    (logRecord H none entry).prev_hash = none
    ∧ (existing ≠ [] →
        verify_integrity H (existing ++ [logRecord H none entry]) = false) := by
  refine ⟨rfl, fun hne => ?_⟩
  exact verifyFrom_append_none_prev H existing none (logRecord H none entry) rfl
    (Or.inr hne)

/-- Witness for `fresh_logger_append_invalidates`: a valid one-record file
(written with the identity hash) becomes invalid once a fresh logger appends
to it. -/
theorem fresh_logger_append_invalidates_witness :
    verify_integrity (fun s => s)
      ([⟨"a", none, "a"⟩] ++ [logRecord (fun s => s) none "b"]) = false :=
  (fresh_logger_append_invalidates (fun s => s) [⟨"a", none, "a"⟩] "b").2
    (by decide)

/-! ## Shared data model (schemas.py / policy_ir_builder.py)

Rule metadata: only the fields the resolver consults (`priority`,
`regulatory_linkage`, `owner`); the remaining metadata fields (`domain`,
`source`, `eff_date`) are never read by the code under verification. -/

/-- Rule metadata as read by `resolution.py` (`.get("priority")`,
`.get("regulatory_linkage")`, `.get("owner", ...)`). -/
structure Meta where
  priority : Option String
  regulatory_linkage : List String
  owner : Option String
deriving DecidableEq, Repr

/-- `VariableSchema` (schemas.py): type string plus the closed value list for
enums. -/
structure VariableSchema where
  vtype : String
  description : String
  values : Option (List String)
deriving DecidableEq, Repr

/-- A `{op, value}` test as consumed by `encode_test`. -/
structure Test where
  op : String
  value : Value
deriving DecidableEq, Repr

/-- `PathStep` (schemas.py): one decision variable with its tests. -/
structure PathStep where
  var : String
  tests : List Test
deriving DecidableEq, Repr

/-- `CompiledPath` (schemas.py / decision_graph.py). -/
structure CompiledPath where
  policy_id : String
  path : List PathStep
  leaf_action : String
  metadata : Meta
deriving DecidableEq, Repr

/-- `IRCondition` (schemas.py): a condition triple `{var, op, value}`. -/
structure IRCondition where
  var : String
  op : String
  value : Value
deriving DecidableEq, Repr

/-- `IRAction` (schemas.py): action `{type, value}` of a conditional rule. -/
structure IRAction where
  atype : String
  avalue : String
deriving DecidableEq, Repr

/-- `ConditionalRule` (schemas.py). -/
structure ConditionalRule where
  policy_id : String
  conditions : List IRCondition
  action : IRAction
  metadata : Meta
deriving DecidableEq, Repr

/-- `Constraint` (schemas.py): invariant constraint with textual predicate. -/
structure Constraint where
  policy_id : String
  constraint : String
  scope : String
  metadata : Meta
deriving DecidableEq, Repr

/-- The slice of `EnforcementContext` (schemas.py) read by `run_smt_check`:
the retrieved rules, constraints and paths. -/
structure EnforcementContext where
  applicable_rules : List ConditionalRule
  applicable_constraints : List Constraint
  applicable_paths : List CompiledPath
deriving DecidableEq, Repr

/-! ## Enforcement/postgen/smt.py — SMT fact verification

The Z3 calls are modelled semantically.  `verify_facts_against_rules` asserts
each extracted fact as an equation `var == value` and each path test via
`encode_test`; since the facts pin every tested variable to a concrete value,
the solver's satisfiability verdict for a path is exactly "every test of the
path evaluates to true at the fact values".  `evalTest` computes that verdict
for well-sorted comparisons (the only ones the pipeline's typed schemas
produce); on an ordering comparison over bool values or mismatched sorts —
where the Z3 layer would raise — it returns `false`. -/

/-- Truth value of a `{op, value}` test at a concrete fact value: the
semantic counterpart of asserting `z3var == fact` together with
`encode_test(z3var, test)`. -/
def evalTest (v : Value) (t : Test) : Bool :=
  match t.op with
  | "==" => v = t.value
  | "!=" => v ≠ t.value
  | "<=" =>
      match v, t.value with
      | .int a, .int b => a ≤ b
      | .int a, .float b => (a : ℚ) ≤ b
      | .float a, .int b => a ≤ (b : ℚ)
      | .float a, .float b => a ≤ b
      | _, _ => false
  | ">=" =>
      match v, t.value with
      | .int a, .int b => a ≥ b
      | .int a, .float b => (a : ℚ) ≥ b
      | .float a, .int b => a ≥ (b : ℚ)
      | .float a, .float b => a ≥ b
      | _, _ => false
  | "<" =>
      match v, t.value with
      | .int a, .int b => a < b
      | .int a, .float b => (a : ℚ) < b
      | .float a, .int b => a < (b : ℚ)
      | .float a, .float b => a < b
      | _, _ => false
  | ">" =>
      match v, t.value with
      | .int a, .int b => a > b
      | .int a, .float b => (a : ℚ) > b
      | .float a, .int b => a > (b : ℚ)
      | .float a, .float b => a > b
      | _, _ => false
  | _ => false

/-- Python `str(value)` as used in the constraint-breach scan.  Exact for
bool, int and string values; for float values the model renders the
integral case exactly ("5.0") and falls back to the rational rendering
otherwise (the decimal repr of a general float is outside the model). -/
def pyStr : Value → String
  | .bool b => if b then "True" else "False"
  | .int n => toString n
  | .float q => if q.den = 1 then toString q.num ++ ".0" else toString q
  | .str s => s

/-- The forbidden token of a `NOT(X)` constraint:
`text[4:-1].lower().replace("_", " ")`. -/
def forbiddenOf (c : Constraint) : String :=
  pyUnderscoreToSpace (pyToLower (pyDropRight (pyDrop c.constraint 4) 1))

/-- The breach test of the constraint scan: the textual predicate has the
surface form `NOT(...)` and the forbidden token is a fact key
(`forbidden in facts`) or a substring of some fact value's lower-cased
string form. -/
def breachCond (facts : List (String × Value)) (c : Constraint) : Bool :=
  pyStartsWith c.constraint "NOT(" && pyEndsWith c.constraint ")" &&
    (facts.any (fun p => p.1 = forbiddenOf c)
      || facts.any (fun p => strContains (pyToLower (pyStr p.2)) (forbiddenOf c)))

/-- The constraint scan of `verify_facts_against_rules`: a breached `NOT(X)`
constraint yields a `constraint_breach` violation. -/
def constraintViolation (facts : List (String × Value)) (c : Constraint) :
    Option Violation :=
  if breachCond facts c then some ⟨c.policy_id, "constraint_breach", c.constraint⟩
  else none

/-- One path of the traversal check: every step's variable has an extracted
fact and the asserted facts together with the step tests are satisfiable,
i.e. every test holds at the fact value. -/
def pathSatisfied (facts : List (String × Value)) (p : CompiledPath) : Bool :=
  p.path.all (fun st =>
    match alookup facts st.var with
    | some v => st.tests.all (fun t => evalTest v t)
    | none => false)

/-- The `uncovered_case` violation appended when no applicable path is
saturated by the facts. -/
def uncoveredViolation : Violation :=
  ⟨"path_coverage", "uncovered_case",
    "Response facts do not match any defined decision graph path"⟩

/-- `verify_facts_against_rules` (smt.py).  The per-rule solver loop of the
source computes a satisfiability check and then discards it (`pass` — the
response-action comparison is left unimplemented), so it contributes nothing
to the result and the `_rules` argument is unread. -/
def verify_facts_against_rules (facts : List (String × Value))
    (_rules : List ConditionalRule) (paths : List CompiledPath)
    (constraints : List Constraint) : SMTResult :=
  if facts.isEmpty then ⟨true, [], 1⟩
  else
    let violations :=
      constraints.filterMap (constraintViolation facts)
        ++ (if (!paths.isEmpty) && (!paths.any (pathSatisfied facts)) then
              [uncoveredViolation]
            else [])
    let passed := violations.isEmpty
    let score : ℚ :=
      if passed then 1
      else if violations.any (fun v => v.violation_type = "uncovered_case") then 1/2
      else 0
    ⟨passed, violations, score⟩

/-- `run_smt_check` (smt.py), parametrised by the facts that
`extract_facts_from_response` produced for the response text: the
no-facts uncertainty penalty, then the core verification. -/
def run_smt_check (facts : List (String × Value)) (context : EnforcementContext) :
    SMTResult :=
  if facts.isEmpty then ⟨true, [], 4/5⟩
  else
    verify_facts_against_rules facts context.applicable_rules
      context.applicable_paths context.applicable_constraints

/-- Spec predicate: some `NOT(X)` constraint is breached by the facts. -/
def BreachExists (facts : List (String × Value))
    (constraints : List Constraint) : Bool :=
  constraints.any (fun c => (constraintViolation facts c).isSome)

/-- Spec predicate: the applicable-path set is non-empty and no applicable
path's steps are all saturated by the facts. -/
def UncoveredCase (facts : List (String × Value))
    (paths : List CompiledPath) : Bool :=
  (!paths.isEmpty) && (!paths.any (pathSatisfied facts))

lemma constraintViolation_type (facts : List (String × Value)) (c : Constraint)
    (v : Violation) (h : constraintViolation facts c = some v) :
    v.violation_type = "constraint_breach" := by
  unfold constraintViolation at h
  split at h
  · cases h; rfl
  · cases h

lemma constraintViolation_isSome (facts : List (String × Value))
    (c : Constraint) :
    (constraintViolation facts c).isSome = breachCond facts c := by
  unfold constraintViolation
  split <;> simp_all

lemma breach_filterMap_nil (facts : List (String × Value))
    (constraints : List Constraint)
    (h : BreachExists facts constraints = false) :
    constraints.filterMap (constraintViolation facts) = [] := by
  rw [List.filterMap_eq_nil_iff]
  intro c hc
  rw [BreachExists, List.any_eq_false] at h
  have h2 := h c hc
  rw [constraintViolation_isSome] at h2
  unfold constraintViolation
  simp_all

lemma breach_filterMap_ne_nil (facts : List (String × Value))
    (constraints : List Constraint)
    (h : BreachExists facts constraints = true) :
    constraints.filterMap (constraintViolation facts) ≠ [] := by
  rw [BreachExists, List.any_eq_true] at h
  obtain ⟨c, hc, hs⟩ := h
  obtain ⟨v, hv⟩ := Option.isSome_iff_exists.mp hs
  intro hnil
  rw [List.filterMap_eq_nil_iff] at hnil
  exact (by simp [hnil c hc] : (constraintViolation facts c) ≠ some v) hv

/-- C2 (amended). For every extracted-fact map and enforcement context:
no facts ⇒ `passed = true, score = 0.8`; otherwise, if no `NOT(X)` constraint
is breached and the uncovered case does not arise the result is
`passed = true, score = 1.0` with no violations; whenever the uncovered case
arises (no applicable path saturated, paths non-empty) the score is `0.5`
even if a constraint is also breached; and a constraint breach without the
uncovered case scores `0`. -/
theorem smt_score_classification (facts : List (String × Value))
    (context : EnforcementContext) :
    (facts = [] → run_smt_check facts context = ⟨true, [], 4/5⟩)
    ∧ (facts ≠ [] →
        (BreachExists facts context.applicable_constraints = false →
         UncoveredCase facts context.applicable_paths = false →
          run_smt_check facts context = ⟨true, [], 1⟩)
        ∧ (UncoveredCase facts context.applicable_paths = true →
            (run_smt_check facts context).score = 1/2
            ∧ (run_smt_check facts context).passed = false)
        ∧ (BreachExists facts context.applicable_constraints = true →
           UncoveredCase facts context.applicable_paths = false →
            (run_smt_check facts context).score = 0
            ∧ (run_smt_check facts context).passed = false)) := by
  constructor
  · intro h
    simp [run_smt_check, h]
  · intro hne
    have hempty : facts.isEmpty = false := by
      simpa [List.isEmpty_iff] using hne
    refine ⟨fun hb hu => ?_, fun hu => ?_, fun hb hu => ?_⟩
    · rw [run_smt_check, if_neg (by simp [hempty]),
        verify_facts_against_rules, if_neg (by simp [hempty])]
      have h1 := breach_filterMap_nil facts context.applicable_constraints hb
      rw [UncoveredCase] at hu
      simp [h1, hu]
    · rw [run_smt_check, if_neg (by simp [hempty]),
        verify_facts_against_rules, if_neg (by simp [hempty])]
      rw [UncoveredCase] at hu
      have hviol :
          (context.applicable_constraints.filterMap (constraintViolation facts))
            ++ [uncoveredViolation]
            ≠ [] := by simp
      simp only [hu, if_true]
      constructor
      · rw [if_neg (by simpa [List.isEmpty_iff] using hviol)]
        rw [if_pos]
        rw [List.any_append]
        simp [uncoveredViolation]
      · simpa [List.isEmpty_iff] using hviol
    · rw [run_smt_check, if_neg (by simp [hempty]),
        verify_facts_against_rules, if_neg (by simp [hempty])]
      rw [UncoveredCase] at hu
      have h1 := breach_filterMap_ne_nil facts context.applicable_constraints hb
      simp only [hu, Bool.false_eq_true, if_false, List.append_nil]
      constructor
      · rw [if_neg (by simpa [List.isEmpty_iff] using h1)]
        rw [if_neg]
        rw [List.any_eq_true]
        rintro ⟨v, hv, ht⟩
        have := constraintViolation_type facts _ v
          (List.mem_filterMap.mp hv).choose_spec.2
        simp [this] at ht
      · simpa [List.isEmpty_iff] using h1

/-- Witness for `smt_score_classification`: with one extracted fact, a
constraint that is not breached and one path saturated by the fact, the
verifier returns `passed = true, score = 1`. -/
theorem smt_score_classification_witness :
    run_smt_check [("has_receipt", Value.bool true)]
      { applicable_rules := []
        applicable_constraints :=
          [⟨"P1", "NOT(medical_advice)", "always", ⟨none, [], none⟩⟩]
        applicable_paths :=
          [⟨"P2", [⟨"has_receipt", [⟨"==", Value.bool true⟩]⟩], "a",
            ⟨none, [], none⟩⟩] } = ⟨true, [], 1⟩ := by
  have h := (smt_score_classification [("has_receipt", Value.bool true)]
    { applicable_rules := []
      applicable_constraints :=
        [⟨"P1", "NOT(medical_advice)", "always", ⟨none, [], none⟩⟩]
      applicable_paths :=
        [⟨"P2", [⟨"has_receipt", [⟨"==", Value.bool true⟩]⟩], "a",
          ⟨none, [], none⟩⟩] }).2 (by simp)
  exact h.1 (by rfl) (by rfl)

/-- Counterexample to C2 as stated: facts that both breach a `NOT(X)`
constraint (the forbidden phrase occurs in a fact value) and leave every
applicable path unsaturated receive score `0.5`, not the `0` the claim
assigns to any constraint breach. -/
theorem smt_breach_with_uncovered_scores_half :
    BreachExists [("topic", Value.str "this is medical advice")]
      [⟨"P1", "NOT(medical_advice)", "always", ⟨none, [], none⟩⟩] = true
    ∧ (run_smt_check [("topic", Value.str "this is medical advice")]
        { applicable_rules := []
          applicable_constraints :=
            [⟨"P1", "NOT(medical_advice)", "always", ⟨none, [], none⟩⟩]
          applicable_paths :=
            [⟨"P2", [⟨"has_receipt", [⟨"==", Value.bool true⟩]⟩], "a",
              ⟨none, [], none⟩⟩] }).score = 1/2 := by
  exact ⟨by rfl, by rfl⟩

/-! ## Validation/policy_ir_builder.py — raw policies to typed IR -/

/-- A raw Extractor condition as read by the IR builder (`.get` accesses:
`type` defaults to `""`; the other fields are `None`-able). -/
structure RawCondition where
  ctype : String
  parameter : Option String
  target : Option String
  operator : Option String
  value : Option Value
  source_text : Option String
deriving DecidableEq, Repr

/-- The optional `discovery` record of a raw policy; a missing
`human_validated` key reads as `False`. -/
structure Discovery where
  human_validated : Bool
deriving DecidableEq, Repr

/-- A raw Extractor action (`type` defaults to `"other"`, `action` to `""`;
`requires` is truthy iff non-empty). -/
structure RawAction where
  atype : String
  action : String
  requires : List String
deriving DecidableEq, Repr

/-- A raw Extractor policy record (`policy_id` defaults to `"UNKNOWN"`);
`metadata` is already in the `_build_metadata` shape. -/
structure RawPolicy where
  policy_id : String
  conditions : List RawCondition
  actions : List RawAction
  metadata : Meta
  discovery : Option Discovery
deriving DecidableEq, Repr

/-- `_infer_variable_name`: fixed table from condition type, then the
`parameter` / `"<type>_<target>"` fallbacks. -/
def inferVariableName (c : RawCondition) : Option String :=
  if c.ctype = "boolean_flag" && truthyStr c.parameter then c.parameter
  else if c.ctype = "time_window" then some "days_since_purchase"
  else if c.ctype = "amount_threshold" then some "refund_amount"
  else if c.ctype = "product_category" then some "product_category"
  else if c.ctype = "customer_tier" then some "customer_tier"
  else if c.ctype = "geographic" then some "region"
  else if c.ctype = "role_requirement" then some "role"
  else if truthyStr c.parameter then c.parameter
  else if truthyStr c.target then some (c.ctype ++ "_" ++ c.target.getD "")
  else none

/-- `_infer_variable_type`: fixed table from condition type, then the
`isinstance` ladder over the literal value (strings infer `enum`). -/
def inferVariableType (c : RawCondition) : String :=
  if c.ctype = "boolean_flag" then "bool"
  else if c.ctype = "time_window" ∨ c.ctype = "role_requirement" then "int"
  else if c.ctype = "amount_threshold" then "float"
  else if c.ctype = "product_category" ∨ c.ctype = "customer_tier"
      ∨ c.ctype = "geographic" then "enum"
  else match c.value with
    | some v => v.typeName
    | none => "enum"

/-- `_condition_to_ir`: boolean flags default a missing operator to `"=="`
and a missing value to `True`; any other condition still missing an operator
or value is skipped (`None`). -/
def conditionToIR (c : RawCondition) (varName : String) : Option IRCondition :=
  let op := if c.ctype = "boolean_flag" && c.operator.isNone then some "=="
            else c.operator
  let value := if c.ctype = "boolean_flag" && c.value.isNone then
                 some (Value.bool true)
               else c.value
  match op, value with
  | some o, some v => some ⟨varName, o, v⟩
  | _, _ => none

/-- The variable description chosen at registration:
`cond.get("source_text") or f"{cond.get('type','')} variable"`. -/
def descOf (c : RawCondition) : String :=
  match c.source_text with
  | some s => if s = "" then c.ctype ++ " variable" else s
  | none => c.ctype ++ " variable"

/-- In-place update of one key of a (unique-keyed) association list, as
`variables[var_name]["values"] = ...` does. -/
def updateAssoc (l : List (String × VariableSchema)) (k : String)
    (f : VariableSchema → VariableSchema) : List (String × VariableSchema) :=
  l.map (fun p => if p.1 = k then (p.1, f p.2) else p)

/-- Append one enum literal to a variable's accumulated `values` list unless
it is already present (`if val not in existing_values`). -/
def appendEnumValue (vars : List (String × VariableSchema)) (k : String)
    (v : String) : List (String × VariableSchema) :=
  updateAssoc vars k (fun vd =>
    let existing := vd.values.getD []
    { vd with values := some (if v ∈ existing then existing else existing ++ [v]) })

/-- Python `cond["target"] != val` where `val` is the condition's value: a
string target differs from a non-string value outright. -/
def targetNeVal (target : String) : Value → Bool
  | .str s => target ≠ s
  | _ => true

/-- Variable registration on first sight (`if var_name not in variables`):
the type is fixed at this moment and enum variables start with an empty
`values` list. -/
def registerVar (vars : List (String × VariableSchema)) (w : String)
    (c : RawCondition) : List (String × VariableSchema) :=
  if (alookup vars w).isSome then vars
  else vars ++
    [(w, ⟨inferVariableType c, descOf c,
        if inferVariableType c = "enum" then some [] else none⟩)]

/-- Enum-literal collection for one condition: when the condition's inferred
type is `enum` and its `value` is present, append the value (when it is a
string) and then the `target` (when truthy and different from the value). -/
def collectValues (vars : List (String × VariableSchema)) (w : String)
    (c : RawCondition) : List (String × VariableSchema) :=
  if inferVariableType c = "enum" then
    match c.value with
    | some val =>
        let varsV :=
          match val with
          | .str s => appendEnumValue vars w s
          | _ => vars
        if truthyStr c.target && targetNeVal (c.target.getD "") val then
          appendEnumValue varsV w (c.target.getD "")
        else varsV
    | none => vars
  else vars

/-- One iteration of the condition loop of `build_policy_ir`: register the
inferred variable on first sight, accumulate enum literals from the `value`
and `target` positions, and append the converted IR condition. -/
def processCondition
    (st : List (String × VariableSchema) × List IRCondition)
    (c : RawCondition) : List (String × VariableSchema) × List IRCondition :=
  match inferVariableName c with
  | none => st
  | some varName =>
      (collectValues (registerVar st.1 varName c) varName c,
       match conditionToIR c varName with
       | some ic => st.2 ++ [ic]
       | none => st.2)

/-- `_infer_action_value`: the action-value normalisation table; unknown
types pass through verbatim. -/
def inferActionValue (t : String) : String :=
  if t = "required" then "full"
  else if t = "fallback" then "partial"
  else if t = "conditional" then "conditional"
  else if t = "other" then "unknown"
  else t

/-- The constraint emitted for a `prohibited` action. -/
def actionConstraint (pid : String) (meta : Meta) (act : RawAction) :
    Option Constraint :=
  if act.atype = "prohibited" then
    some ⟨"C_" ++ pid ++ "_" ++ act.action, "NOT(" ++ act.action ++ ")",
      "always", meta⟩
  else none

/-- The conditional rule emitted for a non-prohibited action: a
`discovered_pattern` action whose policy carries a discovery dict with
`human_validated` falsy is skipped; otherwise a rule is emitted when the
policy has IR conditions or the action a non-empty `requires` list. -/
def actionRule (p : RawPolicy) (irConds : List IRCondition) (act : RawAction) :
    Option ConditionalRule :=
  if act.atype = "prohibited" then none
  else if act.atype = "discovered_pattern"
      && (match p.discovery with
          | some d => !d.human_validated
          | none => false) then none
  else if (!irConds.isEmpty) || (!act.requires.isEmpty) then
    some ⟨p.policy_id, irConds, ⟨act.action, inferActionValue act.atype⟩,
      p.metadata⟩
  else none

/-- The `policy_ir` result: typed variables, conditional rules, constraints
(the generation-metadata block is not modelled). -/
structure PolicyIR where
  vars : List (String × VariableSchema)
  conditional_rules : List ConditionalRule
  constraints : List Constraint
deriving DecidableEq, Repr

/-- One policy's contribution in `build_policy_ir`: walk its conditions
(registering variables and collecting the IR conditions), then walk its
actions emitting constraints and conditional rules. -/
def buildStep (ir : PolicyIR) (p : RawPolicy) : PolicyIR :=
  let st := p.conditions.foldl processCondition (ir.vars, [])
  { vars := st.1
    conditional_rules :=
      ir.conditional_rules ++ p.actions.filterMap (actionRule p st.2)
    constraints :=
      ir.constraints
        ++ p.actions.filterMap (actionConstraint p.policy_id p.metadata) }

/-- `build_policy_ir` (policy_ir_builder.py): single pass over the policies,
threading the variables table and appending rules and constraints. -/
def build_policy_ir (policies : List RawPolicy) : PolicyIR :=
  policies.foldl buildStep ⟨[], [], []⟩

/-- `encode_test` (Validation/z3_utils.py and its Enforcement/ir.py port)
dispatches on the operator string only — it consults no variable type; it
raises only on an unknown operator.  `encodeTestOk` is true exactly when the
encoder returns a constraint rather than raising. -/
def encodeTestOk (t : Test) : Bool :=
  t.op = "==" || t.op = "!=" || t.op = "<=" || t.op = ">=" || t.op = ">"
    || t.op = "<"

lemma buildStep_actions_congr (p : RawPolicy) (acts1 acts2 : List RawAction)
    (h : ∀ irConds, acts1.filterMap (actionRule { p with actions := acts1 } irConds)
        = acts2.filterMap (actionRule { p with actions := acts2 } irConds))
    (h2 : acts1.filterMap (actionConstraint p.policy_id p.metadata)
        = acts2.filterMap (actionConstraint p.policy_id p.metadata)) :
    ∀ ir, buildStep ir { p with actions := acts1 }
        = buildStep ir { p with actions := acts2 } := by
  intro ir
  simp only [buildStep, h, h2]

lemma actionRule_dropped (p : RawPolicy) (irConds : List IRCondition)
    (act : RawAction) (d : Discovery) (hd : p.discovery = some d)
    (hv : d.human_validated = false) (ha : act.atype = "discovered_pattern") :
    actionRule p irConds act = none := by
  unfold actionRule
  rw [if_neg (by simp [ha]), if_pos (by simp [ha, hd, hv])]

lemma actionConstraint_none_of_not_prohibited (pid : String) (meta : Meta)
    (act : RawAction) (h : act.atype ≠ "prohibited") :
    actionConstraint pid meta act = none := by
  unfold actionConstraint
  rw [if_neg (by simp [h])]

/-- C8 (amended). A `discovered_pattern` action whose policy carries a
discovery record with `human_validated` false is dropped silently by the IR
builder: it contributes no conditional rule and no constraint, so removing it
from the policy's action list leaves the built IR unchanged.  (When the
discovery record is absent entirely the action is *not* dropped — see the
counterexample.) -/
theorem discovered_pattern_unvalidated_dropped
    (ps qs : List RawPolicy) (p : RawPolicy) (pre post : List RawAction)
    (act : RawAction) (d : Discovery)
    (hd : p.discovery = some d) (hv : d.human_validated = false)
    (ha : act.atype = "discovered_pattern") :
    build_policy_ir (ps ++ [{ p with actions := pre ++ act :: post }] ++ qs)
      = build_policy_ir (ps ++ [{ p with actions := pre ++ post }] ++ qs) := by
  have hstep : ∀ ir, buildStep ir { p with actions := pre ++ act :: post }
      = buildStep ir { p with actions := pre ++ post } := by
    apply buildStep_actions_congr
    · intro irConds
      have hf1 : actionRule { p with actions := pre ++ act :: post } irConds
          = actionRule p irConds := rfl
      have hf2 : actionRule { p with actions := pre ++ post } irConds
          = actionRule p irConds := rfl
      have hr : actionRule p irConds act = none :=
        actionRule_dropped p irConds act d hd hv ha
      rw [hf1, hf2]
      simp [List.filterMap_append, List.filterMap_cons, hr]
    · have hc : actionConstraint p.policy_id p.metadata act = none :=
        actionConstraint_none_of_not_prohibited _ _ act (by rw [ha]; decide)
      simp [List.filterMap_append, hc]
  unfold build_policy_ir
  rw [List.foldl_append, List.foldl_append, List.foldl_append,
    List.foldl_append]
  simp only [List.foldl_cons, List.foldl_nil]
  rw [hstep]

/-- Witness for `discovered_pattern_unvalidated_dropped`: a concrete policy
with a non-validated discovery record builds the same IR with and without its
`discovered_pattern` action. -/
theorem discovered_pattern_unvalidated_dropped_witness :
    build_policy_ir
      [{ policy_id := "P1"
         conditions :=
           [⟨"boolean_flag", some "has_receipt", none, none, none, none⟩]
         actions := [] ++ ⟨"discovered_pattern", "give_refund", []⟩ :: []
         metadata := ⟨some "company", [], none⟩
         discovery := some ⟨false⟩ }]
      = build_policy_ir
        [{ policy_id := "P1"
           conditions :=
             [⟨"boolean_flag", some "has_receipt", none, none, none, none⟩]
           actions := [] ++ []
           metadata := ⟨some "company", [], none⟩
           discovery := some ⟨false⟩ }] := by
  exact discovered_pattern_unvalidated_dropped [] []
    { policy_id := "P1"
      conditions :=
        [⟨"boolean_flag", some "has_receipt", none, none, none, none⟩]
      actions := []
      metadata := ⟨some "company", [], none⟩
      discovery := some ⟨false⟩ }
    [] [] ⟨"discovered_pattern", "give_refund", []⟩ ⟨false⟩ rfl rfl rfl

/-- Counterexample to C8 as stated: a `discovered_pattern` action on a policy
with *no* discovery record at all is not dropped — the builder emits a
conditional rule for it (the claim asserts it produces no conditional
rule). -/
theorem discovered_pattern_absent_discovery_not_dropped :
    (build_policy_ir
      [{ policy_id := "P1"
         conditions :=
           [⟨"boolean_flag", some "has_receipt", none, none, none, none⟩]
         actions := [⟨"discovered_pattern", "give_refund", []⟩]
         metadata := ⟨some "company", [], none⟩
         discovery := none }]).conditional_rules
      = [⟨"P1", [⟨"has_receipt", "==", Value.bool true⟩],
          ⟨"give_refund", "discovered_pattern"⟩, ⟨some "company", [], none⟩⟩] := by
  rfl

/-- C6. The failing input for the missing compile-time type check: a
`product_category` condition (an enum variable) with the ordering operator
`"<"`.  The IR builder registers the variable as `enum` yet emits the
ill-typed test `product_category < "electronics"` as a conditional rule with
no error, and `encode_test` accepts the `"<"` operator with no type guard —
the ill-typed comparison reaches the Z3 layer instead of being rejected at
compilation time as the specification requires. -/
theorem ordering_on_enum_reaches_encoder :
    alookup
      (build_policy_ir
        [{ policy_id := "P6"
           conditions :=
             [⟨"product_category", none, none, some "<",
               some (Value.str "electronics"), none⟩]
           actions := [⟨"required", "refund", []⟩]
           metadata := ⟨some "company", [], none⟩
           discovery := none }]).vars "product_category"
      = some ⟨"enum", "product_category variable", some ["electronics"]⟩
    ∧ (build_policy_ir
        [{ policy_id := "P6"
           conditions :=
             [⟨"product_category", none, none, some "<",
               some (Value.str "electronics"), none⟩]
           actions := [⟨"required", "refund", []⟩]
           metadata := ⟨some "company", [], none⟩
           discovery := none }]).conditional_rules
      = [⟨"P6", [⟨"product_category", "<", Value.str "electronics"⟩],
          ⟨"refund", "full"⟩, ⟨some "company", [], none⟩⟩]
    ∧ encodeTestOk ⟨"<", Value.str "electronics"⟩ = true := by
  exact ⟨by rfl, by rfl, by rfl⟩

/-! ### Enum value accumulation (C7)

Spec-side description of the literal stream and its de-duplication, compared
against the `values` lists the builder actually produces. -/

/-- The enum literals one condition contributes (its string `value`, then its
`target` when the value is present, the target truthy and different from the
value) — empty unless the condition's inferred type is `enum`. -/
def enumLitsVal (c : RawCondition) : List String :=
  if inferVariableType c = "enum" then
    match c.value with
    | some val =>
        (match val with | .str s => [s] | _ => []) ++
        (if truthyStr c.target && targetNeVal (c.target.getD "") val then
          [c.target.getD ""] else [])
    | none => []
  else []

/-- The literals condition `c` contributes to variable `v`. -/
def enumLiteralsOfCond (v : String) (c : RawCondition) : List String :=
  if inferVariableName c = some v then enumLitsVal c else []

/-- All literals contributed to variable `v` across all policies, in
encounter order. -/
def enumLiterals (policies : List RawPolicy) (v : String) : List String :=
  policies.flatMap (fun p => p.conditions.flatMap (enumLiteralsOfCond v))

/-- First-seen-order de-duplication of a list. -/
def dedupFirstSeen (l : List String) : List String :=
  l.foldl (fun acc s => if s ∈ acc then acc else acc ++ [s]) []

/-- Lexicographic `≤` on character lists (Python string comparison). -/
def lcLe : List Char → List Char → Bool
  | [], _ => true
  | _ :: _, [] => false
  | a :: as, b :: bs => if a < b then true else if a = b then lcLe as bs else false

/-- Python `s1 <= s2` on strings. -/
def strLe (a b : String) : Bool :=
  lcLe a.data b.data

/-- The spec's "sorted de-duplication" of a literal list. -/
def specSortedDedup (l : List String) : List String :=
  List.insertionSort (fun a b => strLe a b = true) (dedupFirstSeen l)

lemma dedupFirstSeen_snoc (l : List String) (s : String) :
    dedupFirstSeen (l ++ [s]) =
      if s ∈ dedupFirstSeen l then dedupFirstSeen l
      else dedupFirstSeen l ++ [s] := by
  unfold dedupFirstSeen
  rw [List.foldl_append]
  rfl

lemma alookup_cons {α : Type} (k0 v : String) (x : α) (l : List (String × α)) :
    alookup ((k0, x) :: l) v = if k0 = v then some x else alookup l v := by
  unfold alookup
  rw [List.find?_cons]
  by_cases h : k0 = v
  · simp [h]
  · simp [h]

lemma alookup_append_left {α : Type} (l m : List (String × α)) (v : String)
    (x : α) (h : alookup l v = some x) : alookup (l ++ m) v = some x := by
  induction l with
  | nil => simp [alookup] at h
  | cons p l ih =>
      obtain ⟨a, b⟩ := p
      rw [alookup_cons] at h
      rw [List.cons_append, alookup_cons]
      by_cases hav : a = v
      · rw [if_pos hav] at h ⊢
        exact h
      · rw [if_neg hav] at h ⊢
        exact ih h

lemma alookup_append_right {α : Type} (l m : List (String × α)) (v : String)
    (h : alookup l v = none) : alookup (l ++ m) v = alookup m v := by
  induction l with
  | nil => rfl
  | cons p l ih =>
      obtain ⟨a, b⟩ := p
      rw [alookup_cons] at h
      by_cases hav : a = v
      · simp [hav] at h
      · rw [List.cons_append, alookup_cons, if_neg hav]
        exact ih (by simpa [hav] using h)

lemma alookup_updateAssoc (l : List (String × VariableSchema)) (k : String)
    (f : VariableSchema → VariableSchema) (v : String) :
    alookup (updateAssoc l k f) v =
      if k = v then (alookup l v).map f else alookup l v := by
  induction l with
  | nil =>
      by_cases h : k = v <;> simp [updateAssoc, alookup, h]
  | cons p l ih =>
      obtain ⟨a, b⟩ := p
      rw [show updateAssoc ((a, b) :: l) k f
          = (if a = k then (a, f b) else (a, b)) :: updateAssoc l k f from rfl]
      by_cases hak : a = k
      · rw [if_pos hak, alookup_cons, alookup_cons]
        by_cases hav : a = v
        · rw [if_pos hav, if_pos (hak ▸ hav), if_pos hav]
          rfl
        · rw [if_neg hav, if_neg hav, ih]
      · rw [if_neg hak, alookup_cons, alookup_cons]
        by_cases hav : a = v
        · rw [if_pos hav, if_pos hav,
            if_neg (fun hkv : k = v => hak (hav.trans hkv.symm))]
        · rw [if_neg hav, if_neg hav, ih]

/-- The invariant threaded through the builder's fold: every enum-registered
variable's `values` list is the first-seen de-duplication of the literal
stream seen so far, and unregistered variables have an empty stream. -/
def VarsInv (lits : String → List String)
    (vars : List (String × VariableSchema)) : Prop :=
  (∀ v vd, alookup vars v = some vd → vd.vtype = "enum" →
      vd.values = some (dedupFirstSeen (lits v)))
  ∧ ∀ v, alookup vars v = none → lits v = []

lemma VarsInv_congr (lits1 lits2 : String → List String)
    (h : ∀ v, lits1 v = lits2 v) (vars : List (String × VariableSchema))
    (hinv : VarsInv lits1 vars) : VarsInv lits2 vars := by
  refine ⟨fun v vd hvd ht => ?_, fun v hv => ?_⟩
  · rw [← h v]; exact hinv.1 v vd hvd ht
  · rw [← h v]; exact hinv.2 v hv

lemma VarsInv_appendEnum (lits : String → List String)
    (vars : List (String × VariableSchema)) (w s : String)
    (hinv : VarsInv lits vars) (hw : (alookup vars w).isSome) :
    VarsInv (fun v => if w = v then lits v ++ [s] else lits v)
      (appendEnumValue vars w s) := by
  constructor
  · intro v vd hvd ht
    rw [appendEnumValue, alookup_updateAssoc] at hvd
    by_cases hwv : w = v
    · rw [if_pos hwv] at hvd
      obtain ⟨vd0, hvd0, hg⟩ := Option.map_eq_some'.mp hvd
      have htyp : vd0.vtype = "enum" := by
        rw [← hg] at ht
        exact ht
      have hvals := hinv.1 v vd0 hvd0 htyp
      rw [← hg]
      simp only [if_pos hwv]
      rw [dedupFirstSeen_snoc]
      simp [hvals]
    · rw [if_neg hwv] at hvd
      simp only [hwv, if_false]
      exact hinv.1 v vd hvd ht
  · intro v hv
    rw [appendEnumValue, alookup_updateAssoc] at hv
    by_cases hwv : w = v
    · rw [if_pos hwv] at hv
      rw [← hwv] at hv
      rw [Option.map_eq_none'] at hv
      rw [hv] at hw
      simp at hw
    · rw [if_neg hwv] at hv
      simp only [hwv, if_false]
      exact hinv.2 v hv

lemma appendEnumValue_isSome (vars : List (String × VariableSchema))
    (w s v : String) (h : (alookup vars v).isSome) :
    (alookup (appendEnumValue vars w s) v).isSome := by
  rw [appendEnumValue, alookup_updateAssoc]
  by_cases hwv : w = v
  · rw [if_pos hwv]
    simpa using h
  · rw [if_neg hwv]
    exact h

lemma VarsInv_register (lits : String → List String)
    (vars : List (String × VariableSchema)) (w : String) (c : RawCondition)
    (hinv : VarsInv lits vars) :
    VarsInv lits (registerVar vars w c)
    ∧ (alookup (registerVar vars w c) w).isSome := by
  unfold registerVar
  by_cases hw : (alookup vars w).isSome
  · rw [if_pos hw]
    exact ⟨hinv, hw⟩
  · rw [if_neg hw]
    have hwn : alookup vars w = none := by
      cases h : alookup vars w
      · rfl
      · rw [h] at hw; simp at hw
    constructor
    · constructor
      · intro v vd hvd ht
        by_cases hvs : (alookup vars v).isSome
        · obtain ⟨x, hx⟩ := Option.isSome_iff_exists.mp hvs
          rw [alookup_append_left vars _ v x hx] at hvd
          injection hvd with hvd2
          subst hvd2
          exact hinv.1 v x hx ht
        · have hvn : alookup vars v = none := by
            cases h : alookup vars v
            · rfl
            · rw [h] at hvs; simp at hvs
          rw [alookup_append_right vars _ v hvn, alookup_cons] at hvd
          by_cases hwv : w = v
          · rw [if_pos hwv] at hvd
            injection hvd with hvd2
            subst hvd2
            dsimp only at ht ⊢
            rw [if_pos ht, ← hwv, hinv.2 w hwn]
            rfl
          · rw [if_neg hwv] at hvd
            simp [alookup] at hvd
      · intro v hv
        by_cases hvs : (alookup vars v).isSome
        · obtain ⟨x, hx⟩ := Option.isSome_iff_exists.mp hvs
          rw [alookup_append_left vars _ v x hx] at hv
          simp at hv
        · have hvn : alookup vars v = none := by
            cases h : alookup vars v
            · rfl
            · rw [h] at hvs; simp at hvs
          exact hinv.2 v hvn
    · rw [alookup_append_right vars _ w hwn, alookup_cons, if_pos rfl]
      rfl

lemma collectValues_inv (lits : String → List String)
    (vars : List (String × VariableSchema)) (w : String) (c : RawCondition)
    (hinv : VarsInv lits vars) (hw : (alookup vars w).isSome) :
    VarsInv (fun v => if w = v then lits v ++ enumLitsVal c else lits v)
      (collectValues vars w c) := by
  unfold collectValues enumLitsVal
  by_cases hT : inferVariableType c = "enum"
  · rw [if_pos hT]
    simp only [if_pos hT]
    cases hval : c.value with
    | none =>
        exact VarsInv_congr _ _ (fun v => by by_cases h : w = v <;> simp [h]) _
          hinv
    | some val =>
        by_cases htgt : (truthyStr c.target
            && targetNeVal (c.target.getD "") val) = true
        · cases val with
          | str s =>
              simp only [htgt, if_true]
              have h1 := VarsInv_appendEnum lits vars w s hinv hw
              have h2 := VarsInv_appendEnum _ _ w (c.target.getD "")
                h1 (appendEnumValue_isSome vars w s w hw)
              refine VarsInv_congr _ _ (fun v => ?_) _ h2
              by_cases hwv : w = v <;> simp [hwv]
          | bool b =>
              simp only [htgt, if_true]
              have h2 := VarsInv_appendEnum lits vars w (c.target.getD "")
                hinv hw
              refine VarsInv_congr _ _ (fun v => ?_) _ h2
              by_cases hwv : w = v <;> simp [hwv]
          | int n =>
              simp only [htgt, if_true]
              have h2 := VarsInv_appendEnum lits vars w (c.target.getD "")
                hinv hw
              refine VarsInv_congr _ _ (fun v => ?_) _ h2
              by_cases hwv : w = v <;> simp [hwv]
          | float q =>
              simp only [htgt, if_true]
              have h2 := VarsInv_appendEnum lits vars w (c.target.getD "")
                hinv hw
              refine VarsInv_congr _ _ (fun v => ?_) _ h2
              by_cases hwv : w = v <;> simp [hwv]
        · rw [Bool.not_eq_true] at htgt
          cases val with
          | str s =>
              simp only [htgt, if_false]
              have h1 := VarsInv_appendEnum lits vars w s hinv hw
              refine VarsInv_congr _ _ (fun v => ?_) _ h1
              by_cases hwv : w = v <;> simp [hwv]
          | bool b =>
              simp only [htgt, if_false]
              exact VarsInv_congr _ _
                (fun v => by by_cases h : w = v <;> simp [h]) _ hinv
          | int n =>
              simp only [htgt, if_false]
              exact VarsInv_congr _ _
                (fun v => by by_cases h : w = v <;> simp [h]) _ hinv
          | float q =>
              simp only [htgt, if_false]
              exact VarsInv_congr _ _
                (fun v => by by_cases h : w = v <;> simp [h]) _ hinv
  · rw [if_neg hT]
    simp only [if_neg hT]
    exact VarsInv_congr _ _ (fun v => by by_cases h : w = v <;> simp [h]) _ hinv

lemma processCondition_inv (c : RawCondition)
    (vars : List (String × VariableSchema)) (irConds : List IRCondition)
    (lits : String → List String) (hinv : VarsInv lits vars) :
    VarsInv (fun v => lits v ++ enumLiteralsOfCond v c)
      (processCondition (vars, irConds) c).1 := by
  unfold processCondition
  cases hname : inferVariableName c with
  | none =>
      refine VarsInv_congr lits _ (fun v => ?_) vars hinv
      simp [enumLiteralsOfCond, hname]
  | some w =>
      obtain ⟨hreg, hsome⟩ := VarsInv_register lits vars w c hinv
      have hcoll := collectValues_inv lits (registerVar vars w c) w c hreg hsome
      refine VarsInv_congr _ _ (fun v => ?_) _ hcoll
      by_cases hwv : w = v
      · subst hwv
        simp [enumLiteralsOfCond, hname]
      · simp [enumLiteralsOfCond, hname, hwv,
          fun h : some w = some v => hwv (by injection h)]

lemma condsFold_inv :
    ∀ (conds : List RawCondition) (vars : List (String × VariableSchema))
      (irConds : List IRCondition) (lits : String → List String),
      VarsInv lits vars →
      VarsInv (fun v => lits v ++ conds.flatMap (enumLiteralsOfCond v))
        (conds.foldl processCondition (vars, irConds)).1 := by
  intro conds
  induction conds with
  | nil =>
      intro vars irConds lits hinv
      exact VarsInv_congr lits _ (fun v => by simp) vars hinv
  | cons c cs ih =>
      intro vars irConds lits hinv
      have h1 := processCondition_inv c vars irConds lits hinv
      have h2 := ih (processCondition (vars, irConds) c).1
        (processCondition (vars, irConds) c).2
        (fun v => lits v ++ enumLiteralsOfCond v c) h1
      rw [List.foldl_cons]
      refine VarsInv_congr
        (fun v => (lits v ++ enumLiteralsOfCond v c)
          ++ cs.flatMap (enumLiteralsOfCond v)) _
        (fun v => by simp) _ ?_
      exact h2

lemma buildFold_inv :
    ∀ (policies : List RawPolicy) (ir : PolicyIR) (lits : String → List String),
      VarsInv lits ir.vars →
      VarsInv (fun v => lits v ++ enumLiterals policies v)
        (policies.foldl buildStep ir).vars := by
  intro policies
  induction policies with
  | nil =>
      intro ir lits hinv
      exact VarsInv_congr lits _ (fun v => by simp [enumLiterals]) ir.vars hinv
  | cons p ps ih =>
      intro ir lits hinv
      have h1 : VarsInv (fun v => lits v ++ p.conditions.flatMap
          (enumLiteralsOfCond v)) (buildStep ir p).vars := by
        have := condsFold_inv p.conditions ir.vars [] lits hinv
        exact this
      have h2 := ih (buildStep ir p) _ h1
      rw [List.foldl_cons]
      refine VarsInv_congr _ _ (fun v => ?_) _ h2
      simp [enumLiterals]

/-- C7 (amended). After IR building, every variable registered with type
`enum` carries a `values` list equal to the **first-seen-order**
de-duplication of the literal stream contributed to it: for each condition
inferring that variable with type `enum` and a present `value`, the string
value followed by the truthy, differing `target` — not the *sorted*
de-duplication the claim states. -/
theorem enum_values_first_seen_dedup (policies : List RawPolicy) (v : String)
    (vd : VariableSchema)
    (h : alookup (build_policy_ir policies).vars v = some vd)
    (ht : vd.vtype = "enum") :
    vd.values = some (dedupFirstSeen (enumLiterals policies v)) := by
  have hstart : VarsInv (fun _ => []) (PolicyIR.vars ⟨[], [], []⟩) := by
    constructor
    · intro v vd hvd
      simp [alookup] at hvd
    · intro v _
      rfl
  have hfinal := buildFold_inv policies ⟨[], [], []⟩ (fun _ => []) hstart
  have hfinal2 := VarsInv_congr _ (fun v => enumLiterals policies v)
    (fun v => by simp) _ hfinal
  exact hfinal2.1 v vd h ht

/-- Witness for `enum_values_first_seen_dedup`: a policy with two
`product_category` conditions (values `"electronics"` then `"clothing"`)
yields exactly the first-seen de-duplicated list. -/
theorem enum_values_first_seen_dedup_witness :
    (⟨"enum", "product_category variable",
        some ["electronics", "clothing"]⟩ : VariableSchema).values
      = some (dedupFirstSeen (enumLiterals
          [{ policy_id := "P7"
             conditions :=
               [⟨"product_category", none, none, some "==",
                 some (Value.str "electronics"), none⟩,
                ⟨"product_category", none, none, some "==",
                 some (Value.str "clothing"), none⟩]
             actions := []
             metadata := ⟨some "company", [], none⟩
             discovery := none }] "product_category")) := by
  exact enum_values_first_seen_dedup
    [{ policy_id := "P7"
       conditions :=
         [⟨"product_category", none, none, some "==",
           some (Value.str "electronics"), none⟩,
          ⟨"product_category", none, none, some "==",
           some (Value.str "clothing"), none⟩]
       actions := []
       metadata := ⟨some "company", [], none⟩
       discovery := none }] "product_category"
    ⟨"enum", "product_category variable", some ["electronics", "clothing"]⟩
    (by rfl) (by rfl)

/-- Counterexample to C7 as stated: with literals seen in the order
`"electronics"`, `"clothing"`, the built `values` list keeps encounter order
`["electronics", "clothing"]`, while the sorted de-duplication is
`["clothing", "electronics"]` — the builder never sorts. -/
theorem enum_values_not_sorted :
    alookup
      (build_policy_ir
        [{ policy_id := "P7"
           conditions :=
             [⟨"product_category", none, none, some "==",
               some (Value.str "electronics"), none⟩,
              ⟨"product_category", none, none, some "==",
               some (Value.str "clothing"), none⟩]
           actions := []
           metadata := ⟨some "company", [], none⟩
           discovery := none }]).vars "product_category"
      = some ⟨"enum", "product_category variable",
          some ["electronics", "clothing"]⟩
    ∧ specSortedDedup (enumLiterals
        [{ policy_id := "P7"
           conditions :=
             [⟨"product_category", none, none, some "==",
               some (Value.str "electronics"), none⟩,
              ⟨"product_category", none, none, some "==",
               some (Value.str "clothing"), none⟩]
           actions := []
           metadata := ⟨some "company", [], none⟩
           discovery := none }] "product_category")
      = ["clothing", "electronics"]
    ∧ (["electronics", "clothing"] : List String)
      ≠ ["clothing", "electronics"] := by
  exact ⟨by rfl, by rfl, by decide⟩

/-! ## Validation/decision_graph.py — variable ordering and path compilation

Python's stable built-in sort is modelled by insertion sort; the sort key
`(type_bucket, -frequency, name)` is injective on the de-duplicated variable
list (its third component is the name itself), so the sorted result is the
same list for any correct sorting algorithm. -/

/-- The `Rule` dataclass of decision_graph.py, as parsed by `parse_rules`. -/
structure DGRule where
  policy_id : String
  conditions : List IRCondition
  action_type : String
  action_value : String
  metadata : Meta
deriving DecidableEq, Repr

/-- `parse_rules`: read the conditional rules of the IR. -/
def parse_rules (ir : PolicyIR) : List DGRule :=
  ir.conditional_rules.map (fun r =>
    ⟨r.policy_id, r.conditions, r.action.atype, r.action.avalue, r.metadata⟩)

/-- The type bucket of `_variable_priority`: 0 for bool, 1 for enum, 2
otherwise (the schema lookup `schema[var]["type"]` is total in the source;
theorems add the declaredness hypothesis). -/
def typeBucket (schema : List (String × VariableSchema)) (v : String) : Int :=
  let t := ((alookup schema v).map (fun vd => vd.vtype)).getD ""
  if t = "bool" then 0 else if t = "enum" then 1 else 2

/-- The frequency counter: appearances of the variable across all rule
conditions. -/
def condVarFreq (rules : List DGRule) (v : String) : Int :=
  ((rules.flatMap (fun r => r.conditions)).countP (fun c => c.var = v) : Int)

/-- The sort order induced by the key `(type_bucket, -frequency, name)`
of `_variable_priority`, compared lexicographically. -/
def varPriorityLE (schema : List (String × VariableSchema))
    (rules : List DGRule) (a b : String) : Prop :=
  typeBucket schema a < typeBucket schema b
  ∨ (typeBucket schema a = typeBucket schema b ∧
      (condVarFreq rules b < condVarFreq rules a
        ∨ (condVarFreq rules a = condVarFreq rules b ∧ strLe a b = true)))

instance (schema : List (String × VariableSchema)) (rules : List DGRule) :
    DecidableRel (varPriorityLE schema rules) := fun a b => by
  unfold varPriorityLE
  exact inferInstance

/-- The first-seen collection of decision variables over all rule
conditions. -/
def collectVars (rules : List DGRule) : List String :=
  rules.foldl
    (fun acc r =>
      r.conditions.foldl
        (fun acc2 c => if c.var ∈ acc2 then acc2 else acc2 ++ [c.var]) acc)
    []

/-- `normalize_action`: leaf form `"<type>:<value>"`. -/
def normalizeAction (t v : String) : String :=
  t ++ ":" ++ v

/-- `_compile_path`: one step per decision variable used by the rule, in the
canonical order, carrying that variable's tests in condition order. -/
def compilePath (r : DGRule) (ordered : List String) : List PathStep :=
  (ordered.filter (fun v => r.conditions.any (fun c => c.var = v))).map
    (fun v =>
      ⟨v, (r.conditions.filter (fun c => c.var = v)).map
          (fun c => ⟨c.op, c.value⟩)⟩)

/-- The decision-graph artefact (module/stats fields not modelled). -/
structure DecisionGraph where
  decision_nodes : List String
  leaf_actions : List String
  compiled_paths : List CompiledPath
deriving DecidableEq, Repr

/-- `build_decision_graph` (decision_graph.py). -/
def build_decision_graph (ir : PolicyIR) : DecisionGraph :=
  let rules := parse_rules ir
  let ordered :=
    List.insertionSort (varPriorityLE ir.vars rules) (collectVars rules)
  { decision_nodes := ordered
    leaf_actions :=
      List.insertionSort (fun a b => strLe a b = true)
        (dedupFirstSeen
          (rules.map (fun r => normalizeAction r.action_type r.action_value)))
    compiled_paths :=
      rules.map (fun r =>
        ⟨r.policy_id, compilePath r ordered,
          normalizeAction r.action_type r.action_value, r.metadata⟩) }

lemma lcLe_total : ∀ a b : List Char, lcLe a b = true ∨ lcLe b a = true := by
  intro a
  induction a with
  | nil => intro b; left; rfl
  | cons x xs ih =>
      intro b
      cases b with
      | nil => right; rfl
      | cons y ys =>
          rcases lt_trichotomy x y with h | h | h
          · left; simp [lcLe, h]
          · subst h
            rcases ih ys with h2 | h2
            · left; simp [lcLe, h2]
            · right; simp [lcLe, h2]
          · right; simp [lcLe, h]

lemma lcLe_trans : ∀ a b c : List Char,
    lcLe a b = true → lcLe b c = true → lcLe a c = true := by
  intro a
  induction a with
  | nil => intro b c _ _; rfl
  | cons x xs ih =>
      intro b c hab hbc
      cases b with
      | nil => simp [lcLe] at hab
      | cons y ys =>
          cases c with
          | nil => simp [lcLe] at hbc
          | cons z zs =>
              simp only [lcLe] at hab hbc ⊢
              by_cases hxy : x < y
              · by_cases hyz : y < z
                · simp [lt_trans hxy hyz]
                · rw [if_neg hyz] at hbc
                  by_cases hyz2 : y = z
                  · subst hyz2
                    simp [hxy]
                  · simp [hyz2] at hbc
              · rw [if_neg hxy] at hab
                by_cases hxy2 : x = y
                · subst hxy2
                  rw [if_pos rfl] at hab
                  by_cases hxz : x < z
                  · simp [hxz]
                  · rw [if_neg hxz] at hbc ⊢
                    by_cases hxz2 : x = z
                    · rw [if_pos hxz2] at hbc ⊢
                      exact ih ys zs hab hbc
                    · simp [hxz2] at hbc
                · simp [hxy2] at hab

lemma strLe_total (a b : String) : strLe a b = true ∨ strLe b a = true :=
  lcLe_total a.data b.data

lemma strLe_trans {a b c : String} (h1 : strLe a b = true)
    (h2 : strLe b c = true) : strLe a c = true :=
  lcLe_trans a.data b.data c.data h1 h2

lemma varPriorityLE_total (schema : List (String × VariableSchema))
    (rules : List DGRule) (a b : String) :
    varPriorityLE schema rules a b ∨ varPriorityLE schema rules b a := by
  unfold varPriorityLE
  rcases lt_trichotomy (typeBucket schema a) (typeBucket schema b) with h | h | h
  · left; left; exact h
  · rcases lt_trichotomy (condVarFreq rules a) (condVarFreq rules b)
      with h2 | h2 | h2
    · right; right; exact ⟨h.symm, Or.inl h2⟩
    · rcases strLe_total a b with h3 | h3
      · left; right; exact ⟨h, Or.inr ⟨h2, h3⟩⟩
      · right; right; exact ⟨h.symm, Or.inr ⟨h2.symm, h3⟩⟩
    · left; right; exact ⟨h, Or.inl h2⟩
  · right; left; exact h

lemma varPriorityLE_trans (schema : List (String × VariableSchema))
    (rules : List DGRule) (a b c : String)
    (hab : varPriorityLE schema rules a b)
    (hbc : varPriorityLE schema rules b c) :
    varPriorityLE schema rules a c := by
  unfold varPriorityLE at *
  rcases hab with h1 | ⟨h1, h2⟩
  · rcases hbc with h3 | ⟨h3, _⟩
    · exact Or.inl (lt_trans h1 h3)
    · exact Or.inl (h3 ▸ h1)
  · rcases hbc with h3 | ⟨h3, h4⟩
    · exact Or.inl (h1 ▸ h3)
    · refine Or.inr ⟨h1.trans h3, ?_⟩
      rcases h2 with h2 | ⟨h2, h2s⟩
      · rcases h4 with h4 | ⟨h4, _⟩
        · exact Or.inl (lt_trans h4 h2)
        · exact Or.inl (h4 ▸ h2)
      · rcases h4 with h4 | ⟨h4, h4s⟩
        · exact Or.inl (h2 ▸ h4)
        · exact Or.inr ⟨h2.trans h4, strLe_trans h2s h4s⟩

lemma collectVars_inner_mem (conds : List IRCondition) :
    ∀ (acc : List String) (v : String),
      v ∈ conds.foldl
        (fun acc2 c => if c.var ∈ acc2 then acc2 else acc2 ++ [c.var]) acc
      ↔ v ∈ acc ∨ ∃ c ∈ conds, c.var = v := by
  induction conds with
  | nil => intro acc v; simp
  | cons c cs ih =>
      intro acc v
      rw [List.foldl_cons]
      rw [ih]
      by_cases hmem : c.var ∈ acc
      · rw [if_pos hmem]
        constructor
        · rintro (h | ⟨c2, hc2, hv⟩)
          · exact Or.inl h
          · exact Or.inr ⟨c2, List.mem_cons_of_mem c hc2, hv⟩
        · rintro (h | ⟨c2, hc2, hv⟩)
          · exact Or.inl h
          · rcases List.mem_cons.mp hc2 with hh | hh
            · subst hh
              exact Or.inl (hv ▸ hmem)
            · exact Or.inr ⟨c2, hh, hv⟩
      · rw [if_neg hmem]
        constructor
        · rintro (h | ⟨c2, hc2, hv⟩)
          · rcases List.mem_append.mp h with h2 | h2
            · exact Or.inl h2
            · exact Or.inr ⟨c, List.mem_cons_self c cs,
                (List.mem_singleton.mp h2).symm⟩
          · exact Or.inr ⟨c2, List.mem_cons_of_mem c hc2, hv⟩
        · rintro (h | ⟨c2, hc2, hv⟩)
          · exact Or.inl (List.mem_append.mpr (Or.inl h))
          · rcases List.mem_cons.mp hc2 with hh | hh
            · subst hh
              exact Or.inl (List.mem_append.mpr (Or.inr (by simp [hv])))
            · exact Or.inr ⟨c2, hh, hv⟩

lemma collectVars_mem (rules : List DGRule) :
    ∀ (v : String), v ∈ collectVars rules
      ↔ ∃ r ∈ rules, ∃ c ∈ r.conditions, c.var = v := by
  suffices h : ∀ (rs : List DGRule) (acc : List String) (v : String),
      v ∈ rs.foldl (fun acc r => r.conditions.foldl
        (fun acc2 c => if c.var ∈ acc2 then acc2 else acc2 ++ [c.var]) acc) acc
      ↔ v ∈ acc ∨ ∃ r ∈ rs, ∃ c ∈ r.conditions, c.var = v by
    intro v
    rw [collectVars, h]
    simp
  intro rs
  induction rs with
  | nil => intro acc v; simp
  | cons r rs ih =>
      intro acc v
      rw [List.foldl_cons, ih, collectVars_inner_mem]
      constructor
      · rintro ((h | h) | ⟨r2, hr2, hc⟩)
        · exact Or.inl h
        · exact Or.inr ⟨r, List.mem_cons_self r rs, h⟩
        · exact Or.inr ⟨r2, List.mem_cons_of_mem r hr2, hc⟩
      · rintro (h | ⟨r2, hr2, hc⟩)
        · exact Or.inl (Or.inl h)
        · rcases List.mem_cons.mp hr2 with hh | hh
          · subst hh
            exact Or.inl (Or.inr hc)
          · exact Or.inr ⟨r2, hh, hc⟩

lemma collectVars_inner_nodup (conds : List IRCondition) :
    ∀ (acc : List String), acc.Nodup →
      (conds.foldl
        (fun acc2 c => if c.var ∈ acc2 then acc2 else acc2 ++ [c.var])
        acc).Nodup := by
  induction conds with
  | nil => intro acc h; exact h
  | cons c cs ih =>
      intro acc h
      rw [List.foldl_cons]
      by_cases hmem : c.var ∈ acc
      · rw [if_pos hmem]
        exact ih acc h
      · rw [if_neg hmem]
        exact ih _ (by simp [List.nodup_append, h, hmem])

lemma collectVars_nodup (rules : List DGRule) : (collectVars rules).Nodup := by
  suffices h : ∀ (rs : List DGRule) (acc : List String), acc.Nodup →
      (rs.foldl (fun acc r => r.conditions.foldl
        (fun acc2 c => if c.var ∈ acc2 then acc2 else acc2 ++ [c.var]) acc)
        acc).Nodup by
    exact h rules [] List.nodup_nil
  intro rs
  induction rs with
  | nil => intro acc h; exact h
  | cons r rs ih =>
      intro acc h
      rw [List.foldl_cons]
      exact ih _ (collectVars_inner_nodup r.conditions acc h)

/-- C9. Provided every condition variable is declared in the schema (the
source crashes otherwise), `decision_nodes` contains exactly the variables
appearing in rule conditions, without duplicates, sorted by the key
`(type_bucket, -frequency, name)`; hence for any two distinct such variables
exactly one precedes the other (their positions compare one way iff not the
other). -/
theorem decision_nodes_total_order (ir : PolicyIR)
    (hdecl : ∀ r ∈ parse_rules ir, ∀ c ∈ r.conditions,
      (alookup ir.vars c.var).isSome) :
    (∀ v, v ∈ (build_decision_graph ir).decision_nodes
       ↔ ∃ r ∈ parse_rules ir, ∃ c ∈ r.conditions, c.var = v)
    ∧ (build_decision_graph ir).decision_nodes.Nodup
    ∧ (build_decision_graph ir).decision_nodes.Pairwise
        (varPriorityLE ir.vars (parse_rules ir))
    ∧ ∀ v1 v2, v1 ∈ (build_decision_graph ir).decision_nodes →
        v2 ∈ (build_decision_graph ir).decision_nodes → v1 ≠ v2 →
        (((build_decision_graph ir).decision_nodes.indexOf v1
            < (build_decision_graph ir).decision_nodes.indexOf v2)
          ↔ ¬ ((build_decision_graph ir).decision_nodes.indexOf v2
            < (build_decision_graph ir).decision_nodes.indexOf v1)) := by
  have hnodes : (build_decision_graph ir).decision_nodes
      = List.insertionSort (varPriorityLE ir.vars (parse_rules ir))
          (collectVars (parse_rules ir)) := rfl
  have hperm := List.perm_insertionSort
    (varPriorityLE ir.vars (parse_rules ir)) (collectVars (parse_rules ir))
  have hmem : ∀ v, v ∈ (build_decision_graph ir).decision_nodes
      ↔ ∃ r ∈ parse_rules ir, ∃ c ∈ r.conditions, c.var = v := by
    intro v
    rw [hnodes, List.mem_insertionSort, collectVars_mem]
  have hnd : (build_decision_graph ir).decision_nodes.Nodup := by
    rw [hnodes]
    exact hperm.nodup_iff.mpr (collectVars_nodup (parse_rules ir))
  refine ⟨hmem, hnd, ?_, ?_⟩
  · rw [hnodes]
    haveI : IsTotal String (varPriorityLE ir.vars (parse_rules ir)) :=
      ⟨varPriorityLE_total ir.vars (parse_rules ir)⟩
    haveI : IsTrans String (varPriorityLE ir.vars (parse_rules ir)) :=
      ⟨varPriorityLE_trans ir.vars (parse_rules ir)⟩
    exact List.sorted_insertionSort _ _
  · intro v1 v2 h1 h2 hne
    have hl1 : (build_decision_graph ir).decision_nodes.indexOf v1
        < (build_decision_graph ir).decision_nodes.length :=
      List.indexOf_lt_length.mpr h1
    have hl2 : (build_decision_graph ir).decision_nodes.indexOf v2
        < (build_decision_graph ir).decision_nodes.length :=
      List.indexOf_lt_length.mpr h2
    have hix : (build_decision_graph ir).decision_nodes.indexOf v1
        ≠ (build_decision_graph ir).decision_nodes.indexOf v2 := by
      intro heq
      have e1 := List.indexOf_get hl1
      have e2 := List.indexOf_get hl2
      rw [← e1, ← e2] at hne
      apply hne
      congr 1
      exact Fin.ext heq
    omega

/-- Witness for `decision_nodes_total_order`: a one-rule bundle over a bool,
an enum and an int variable; the bool variable precedes the int variable in
the compiled node order and not vice versa. -/
theorem decision_nodes_total_order_witness :
    ((build_decision_graph
        { vars := [("has_receipt", ⟨"bool", "", none⟩),
                   ("product_category", ⟨"enum", "", some ["electronics"]⟩),
                   ("days_since_purchase", ⟨"int", "", none⟩)]
          conditional_rules :=
            [⟨"P1",
              [⟨"days_since_purchase", "<=", Value.int 30⟩,
               ⟨"product_category", "==", Value.str "electronics"⟩,
               ⟨"has_receipt", "==", Value.bool true⟩],
              ⟨"refund", "full"⟩, ⟨some "company", [], none⟩⟩]
          constraints := [] }).decision_nodes.indexOf "has_receipt"
      < (build_decision_graph
        { vars := [("has_receipt", ⟨"bool", "", none⟩),
                   ("product_category", ⟨"enum", "", some ["electronics"]⟩),
                   ("days_since_purchase", ⟨"int", "", none⟩)]
          conditional_rules :=
            [⟨"P1",
              [⟨"days_since_purchase", "<=", Value.int 30⟩,
               ⟨"product_category", "==", Value.str "electronics"⟩,
               ⟨"has_receipt", "==", Value.bool true⟩],
              ⟨"refund", "full"⟩, ⟨some "company", [], none⟩⟩]
          constraints := [] }).decision_nodes.indexOf "days_since_purchase")
    ↔ ¬ ((build_decision_graph
        { vars := [("has_receipt", ⟨"bool", "", none⟩),
                   ("product_category", ⟨"enum", "", some ["electronics"]⟩),
                   ("days_since_purchase", ⟨"int", "", none⟩)]
          conditional_rules :=
            [⟨"P1",
              [⟨"days_since_purchase", "<=", Value.int 30⟩,
               ⟨"product_category", "==", Value.str "electronics"⟩,
               ⟨"has_receipt", "==", Value.bool true⟩],
              ⟨"refund", "full"⟩, ⟨some "company", [], none⟩⟩]
          constraints := [] }).decision_nodes.indexOf "days_since_purchase"
      < (build_decision_graph
        { vars := [("has_receipt", ⟨"bool", "", none⟩),
                   ("product_category", ⟨"enum", "", some ["electronics"]⟩),
                   ("days_since_purchase", ⟨"int", "", none⟩)]
          conditional_rules :=
            [⟨"P1",
              [⟨"days_since_purchase", "<=", Value.int 30⟩,
               ⟨"product_category", "==", Value.str "electronics"⟩,
               ⟨"has_receipt", "==", Value.bool true⟩],
              ⟨"refund", "full"⟩, ⟨some "company", [], none⟩⟩]
          constraints := [] }).decision_nodes.indexOf "has_receipt") := by
  exact (decision_nodes_total_order
    { vars := [("has_receipt", ⟨"bool", "", none⟩),
               ("product_category", ⟨"enum", "", some ["electronics"]⟩),
               ("days_since_purchase", ⟨"int", "", none⟩)]
      conditional_rules :=
        [⟨"P1",
          [⟨"days_since_purchase", "<=", Value.int 30⟩,
           ⟨"product_category", "==", Value.str "electronics"⟩,
           ⟨"has_receipt", "==", Value.bool true⟩],
          ⟨"refund", "full"⟩, ⟨some "company", [], none⟩⟩]
      constraints := [] } (by decide)).2.2.2
    "has_receipt" "days_since_purchase" (by decide) (by decide) (by decide)

/-! ## Validation/conflict_detector.py and z3_utils.solve_paths

The Z3 call of `solve_paths` is abstracted as a model oracle
`checkModel : path → path → schema → Option (String → Value)`: `none` models
an unsat verdict, `some σ` a model completed over every declared variable
(`model_completion=True`).  `solve_paths` then materialises the witness by
walking the schema and converting each model value to its native type — on a
well-typed model that conversion is the identity, so the witness is the
model's value at every declared variable.  The theorems take the oracle's
soundness (typed models) and completeness (sat ⇒ some model) as hypotheses:
exactly the contract of the Z3 solver on this quantifier-free fragment. -/

/-- A model assignment is well-typed for the schema when every declared
variable receives a value of its native type. -/
def WellTypedAssign (σ : String → Value)
    (schema : List (String × VariableSchema)) : Prop :=
  ∀ p ∈ schema, (σ p.1).typeName = p.2.vtype

/-- All tests of all steps of a compiled path hold at the assignment: the
satisfaction of the constraints `encode_path` asserts. -/
def pathTestsHold (σ : String → Value) (path : List PathStep) : Bool :=
  path.all (fun st => st.tests.all (fun t => evalTest (σ st.var) t))

/-- Two paths can fire simultaneously: some well-typed assignment satisfies
every test of both. -/
def SatTogether (a b : List PathStep)
    (schema : List (String × VariableSchema)) : Prop :=
  ∃ σ : String → Value, WellTypedAssign σ schema
    ∧ pathTestsHold σ a = true ∧ pathTestsHold σ b = true

/-- `solve_paths` (z3_utils.py), over the model oracle: on sat, materialise a
witness assigning the model's value to every declared variable. -/
def solve_paths
    (checkModel : List PathStep → List PathStep →
      List (String × VariableSchema) → Option (String → Value))
    (a b : List PathStep) (schema : List (String × VariableSchema)) :
    Option (List (String × Value)) :=
  (checkModel a b schema).map (fun σ => schema.map (fun p => (p.1, σ p.1)))

/-- `itertools.combinations(paths, 2)`: all unordered pairs in list order. -/
def comb2 {α : Type} : List α → List (α × α)
  | [] => []
  | x :: xs => xs.map (fun y => (x, y)) ++ comb2 xs

/-- One logical conflict record: policies, actions, witness and the two
paths' metadata. -/
structure Conflict where
  policies : String × String
  actions : String × String
  witness : List (String × Value)
  meta1 : Option Meta
  meta2 : Option Meta
deriving Repr

/-- `detect_conflicts` (conflict_detector.py): for every pair of compiled
paths with distinct leaf actions, query the solver; record a logical conflict
with the materialised witness on sat. -/
def detect_conflicts
    (checkModel : List PathStep → List PathStep →
      List (String × VariableSchema) → Option (String → Value))
    (paths : List CompiledPath) (schema : List (String × VariableSchema)) :
    List Conflict :=
  (comb2 paths).filterMap (fun pq =>
    if pq.1.leaf_action = pq.2.leaf_action then none
    else
      (solve_paths checkModel pq.1.path pq.2.path schema).map (fun w =>
        ⟨(pq.1.policy_id, pq.2.policy_id),
         (pq.1.leaf_action, pq.2.leaf_action), w,
         some pq.1.metadata, some pq.2.metadata⟩))

lemma alookup_map_self (schema : List (String × VariableSchema))
    (σ : String → Value) (n : String) (vs : VariableSchema)
    (h : (n, vs) ∈ schema) :
    alookup (schema.map (fun p => (p.1, σ p.1))) n = some (σ n) := by
  induction schema with
  | nil => cases h
  | cons p rest ih =>
      obtain ⟨a, b⟩ := p
      rw [List.map_cons, alookup_cons]
      by_cases hav : a = n
      · rw [if_pos hav, hav]
      · rw [if_neg hav]
        rcases List.mem_cons.mp h with hh | hh
        · cases hh
          exact absurd rfl hav
        · exact ih hh

/-- C4. Under the solver contract (sound typed models, completeness on this
fragment), every unordered pair of compiled paths with distinct leaf actions
whose combined test conjunction is satisfiable under the schema appears in
the conflict report, with a witness that assigns a value of the declared
native type to every declared variable. -/
theorem conflict_completeness
    (checkModel : List PathStep → List PathStep →
      List (String × VariableSchema) → Option (String → Value))
    (paths : List CompiledPath) (schema : List (String × VariableSchema))
    (hsound : ∀ a b σ, checkModel a b schema = some σ →
      WellTypedAssign σ schema)
    (hcomplete : ∀ a b, SatTogether a b schema →
      (checkModel a b schema).isSome) :
    ∀ p1 p2, (p1, p2) ∈ comb2 paths → p1.leaf_action ≠ p2.leaf_action →
      SatTogether p1.path p2.path schema →
      ∃ w, (⟨(p1.policy_id, p2.policy_id), (p1.leaf_action, p2.leaf_action),
          w, some p1.metadata, some p2.metadata⟩ : Conflict)
          ∈ detect_conflicts checkModel paths schema
        ∧ ∀ nv ∈ schema, ∃ val, alookup w nv.1 = some val
            ∧ val.typeName = nv.2.vtype := by
  intro p1 p2 hpair hne hsat
  obtain ⟨σ, hσ⟩ := Option.isSome_iff_exists.mp
    (hcomplete p1.path p2.path hsat)
  refine ⟨schema.map (fun p => (p.1, σ p.1)), ?_, ?_⟩
  · rw [detect_conflicts]
    apply List.mem_filterMap.mpr
    refine ⟨(p1, p2), hpair, ?_⟩
    rw [if_neg hne, solve_paths, hσ]
    rfl
  · intro nv hnv
    obtain ⟨n, vs⟩ := nv
    refine ⟨σ n, alookup_map_self schema σ n vs hnv, ?_⟩
    exact hsound p1.path p2.path σ hσ (n, vs) hnv

/-- Witness for `conflict_completeness`: a one-variable bool schema, two
one-step paths testing `x == true` with distinct leaf actions, and the
constant model `x ↦ true`; the conflict is recorded with a witness typing
`x` as bool. -/
theorem conflict_completeness_witness :
    ∃ w, (⟨("P1", "P2"), ("a", "b"), w, some ⟨none, [], none⟩,
          some ⟨none, [], none⟩⟩ : Conflict)
        ∈ detect_conflicts (fun _ _ _ => some (fun _ => Value.bool true))
            [⟨"P1", [⟨"x", [⟨"==", Value.bool true⟩]⟩], "a", ⟨none, [], none⟩⟩,
             ⟨"P2", [⟨"x", [⟨"==", Value.bool true⟩]⟩], "b", ⟨none, [], none⟩⟩]
            [("x", ⟨"bool", "", none⟩)]
      ∧ ∀ nv ∈ [(("x" : String), (⟨"bool", "", none⟩ : VariableSchema))],
          ∃ val, alookup w nv.1 = some val ∧ val.typeName = nv.2.vtype := by
  exact conflict_completeness (fun _ _ _ => some (fun _ => Value.bool true))
    [⟨"P1", [⟨"x", [⟨"==", Value.bool true⟩]⟩], "a", ⟨none, [], none⟩⟩,
     ⟨"P2", [⟨"x", [⟨"==", Value.bool true⟩]⟩], "b", ⟨none, [], none⟩⟩]
    [("x", ⟨"bool", "", none⟩)]
    (fun _ _ σ h => by
      injection h with h2
      subst h2
      intro p hp
      rcases List.mem_singleton.mp hp with rfl
      rfl)
    (fun _ _ _ => rfl)
    ⟨"P1", [⟨"x", [⟨"==", Value.bool true⟩]⟩], "a", ⟨none, [], none⟩⟩
    ⟨"P2", [⟨"x", [⟨"==", Value.bool true⟩]⟩], "b", ⟨none, [], none⟩⟩
    (by decide) (by decide)
    ⟨fun _ => Value.bool true,
      fun p hp => by rcases List.mem_singleton.mp hp with rfl; rfl,
      by decide, by decide⟩

/-! ## Validation/resolution.py — priority resolution

Conflict metadata is the dict `conf["metadata"]["p1"/"p2"]`; the resolver
falls back to the compiled paths' metadata (`pid_to_meta`) when a conflict
carries none (`none` models the absent/falsy case; the detector always sets
it).  `pid_to_meta` is a dict comprehension in which a duplicated policy id
keeps the *last* path's metadata, hence the reversed list under first-match
lookup.  `_evidence_of` wraps the detector's witness; that witness is the
only evidence form the pipeline produces. -/

/-- The metadata (`{}` in Python) every `.get` read treats as empty. -/
def emptyMeta : Meta := ⟨none, [], none⟩

/-- `PRIORITY_RANK` (resolution.py): the priority lattice, lower wins. -/
def PRIORITY_RANK : List (String × Nat) :=
  [("regulatory", 1), ("core_values", 2), ("company", 3),
   ("department", 4), ("situational", 5)]

/-- `_normalize_priority`: non-empty regulatory linkage promotes to
`regulatory`; otherwise lower-case and strip the declared priority, accept
lattice levels verbatim, map the aliases, default to `company`. -/
def normalizePriority (meta : Meta) : String :=
  if ¬ meta.regulatory_linkage.isEmpty then "regulatory"
  else
    let raw := match meta.priority with
      | some s => if s = "" then "company" else s
      | none => "company"
    let p := pyStrip (pyToLower raw)
    if (alookup PRIORITY_RANK p).isSome then p
    else if p = "legal" ∨ p = "law" ∨ p = "reg" then "regulatory"
    else if p = "values" ∨ p = "ethics" ∨ p = "privacy" ∨ p = "safety" then
      "core_values"
    else if p = "dept" ∨ p = "team" then "department"
    else if p = "promo" ∨ p = "temporary" then "situational"
    else "company"

/-- `_rank`: lattice rank of the normalised priority (the lookup is total
because `_normalize_priority` only returns lattice levels). -/
def rankOf (meta : Meta) : Nat :=
  (alookup PRIORITY_RANK (normalizePriority meta)).getD 0

/-- `_owner_of`. -/
def ownerOf (meta : Meta) : String :=
  meta.owner.getD "unknown_owner"

/-- `_action_relation`: `compose` when one action mentions `approval` and
the other `refund`; `override` otherwise. -/
def actionRelation (a1 a2 : String) : String :=
  if (strContains a1 "approval" && strContains a2 "refund")
      || (strContains a2 "approval" && strContains a1 "refund") then "compose"
  else "override"

/-- Python `s1 < s2` on strings. -/
def strLt (a b : String) : Bool :=
  strLe a b && a ≠ b

/-- Python `sorted([p1, p2])`. -/
def sortPair (p1 p2 : String) : List String :=
  if strLt p2 p1 then [p2, p1] else [p1, p2]

/-- Python `sorted({o1, o2})` over the two owners. -/
def sortedOwners (m1 m2 : Meta) : List String :=
  if ownerOf m1 = ownerOf m2 then [ownerOf m1]
  else sortPair (ownerOf m1) (ownerOf m2)

/-- The metadata the resolver uses for one side of a conflict. -/
def confMeta (m : Option Meta) (pidToMeta : List (String × Meta))
    (pid : String) : Meta :=
  match m with
  | some mm => mm
  | none => (alookup pidToMeta pid).getD emptyMeta

/-- An auto-resolution record. -/
structure AutoResolution where
  policies : String × String
  winner : String
  loser : String
  winner_priority : String
  loser_priority : String
  action_relation : String
  evidence : List (String × Value)
deriving DecidableEq, Repr

/-- An escalation record. -/
structure Escalation where
  conflict_type : String
  policies : String × String
  actions : String × String
  priority : String
  owners_to_notify : List String
  evidence : List (String × Value)
  recommended_next_step : String
deriving DecidableEq, Repr

/-- A dominance rule: `when.policies_fire`, `then.mode`, `then.enforce`. -/
structure DomRule where
  policies_fire : List String
  mode : String
  enforce : String
deriving DecidableEq, Repr

/-- `rank1 != rank2` for a logical conflict. -/
def rankUnequal (pidToMeta : List (String × Meta)) (c : Conflict) : Bool :=
  rankOf (confMeta c.meta1 pidToMeta c.policies.1)
    ≠ rankOf (confMeta c.meta2 pidToMeta c.policies.2)

/-- The winning policy id of an unequal-priority logical conflict: the
lower-ranked side. -/
def resolveWinner (pidToMeta : List (String × Meta)) (c : Conflict) : String :=
  if rankOf (confMeta c.meta1 pidToMeta c.policies.1)
      < rankOf (confMeta c.meta2 pidToMeta c.policies.2) then c.policies.1
  else c.policies.2

/-- The dedup key of a dominance rule: `(sorted pair, winner, relation)`. -/
def domKeyOf (pidToMeta : List (String × Meta)) (c : Conflict) :
    List String × String × String :=
  (sortPair c.policies.1 c.policies.2, resolveWinner pidToMeta c,
    actionRelation c.actions.1 c.actions.2)

/-- The auto-resolution emitted for an unequal-priority logical conflict. -/
def mkAutoResolution (pidToMeta : List (String × Meta)) (c : Conflict) :
    AutoResolution :=
  let m1 := confMeta c.meta1 pidToMeta c.policies.1
  let m2 := confMeta c.meta2 pidToMeta c.policies.2
  let winner := resolveWinner pidToMeta c
  ⟨(c.policies.1, c.policies.2), winner,
    if winner = c.policies.1 then c.policies.2 else c.policies.1,
    normalizePriority (if winner = c.policies.1 then m1 else m2),
    normalizePriority (if winner = c.policies.1 then m2 else m1),
    actionRelation c.actions.1 c.actions.2, c.witness⟩

/-- The dominance rule emitted for an unequal-priority logical conflict. -/
def mkDomRule (pidToMeta : List (String × Meta)) (c : Conflict) : DomRule :=
  ⟨sortPair c.policies.1 c.policies.2,
    if actionRelation c.actions.1 c.actions.2 = "compose" then "compose"
    else "override",
    resolveWinner pidToMeta c⟩

/-- The escalation emitted for an equal-priority logical conflict. -/
def mkEscalationLogical (pidToMeta : List (String × Meta)) (c : Conflict) :
    Escalation :=
  let m1 := confMeta c.meta1 pidToMeta c.policies.1
  let m2 := confMeta c.meta2 pidToMeta c.policies.2
  ⟨"logical", c.policies, c.actions, normalizePriority m1,
    sortedOwners m1 m2, c.witness, "human_review"⟩

/-- The escalation emitted for a semantic conflict (its metadata is always
re-fetched from `pid_to_meta` before resolution). -/
def mkEscalationSemantic (pidToMeta : List (String × Meta)) (c : Conflict) :
    Escalation :=
  let m1 := (alookup pidToMeta c.policies.1).getD emptyMeta
  let m2 := (alookup pidToMeta c.policies.2).getD emptyMeta
  ⟨"semantic", c.policies, c.actions,
    normalizePriority m1 ++ "|" ++ normalizePriority m2,
    sortedOwners m1 m2, c.witness, "llm_validation_or_human_review"⟩

/-- The conflict report slice the resolver reads. -/
structure ConflictReport where
  logical_conflicts : List Conflict
  semantic_conflicts : List Conflict

/-- The resolver's mutable state: the three output lists and the
`seen_rules` key set. -/
structure ResolveState where
  autos : List AutoResolution
  escs : List Escalation
  doms : List DomRule
  seen : List (List String × String × String)

/-- `_resolve_pair` for one logical conflict: unequal priorities append an
auto-resolution and (if the key is new) a dominance rule; equal priorities
append an escalation. -/
def resolveStep (pidToMeta : List (String × Meta)) (st : ResolveState)
    (c : Conflict) : ResolveState :=
  if rankUnequal pidToMeta c then
    let key := domKeyOf pidToMeta c
    if key ∈ st.seen then
      { st with autos := st.autos ++ [mkAutoResolution pidToMeta c] }
    else
      { st with
        autos := st.autos ++ [mkAutoResolution pidToMeta c]
        doms := st.doms ++ [mkDomRule pidToMeta c]
        seen := st.seen ++ [key] }
  else
    { st with escs := st.escs ++ [mkEscalationLogical pidToMeta c] }

/-- The resolution report slice of interest. -/
structure ResolutionReport where
  auto_resolutions : List AutoResolution
  escalations : List Escalation
  dominance_rules : List DomRule

/-- `resolve_conflicts` (resolution.py): fold the logical conflicts through
`_resolve_pair`, then append the semantic escalations. -/
def resolve_conflicts (report : ConflictReport)
    (compiled_paths : List CompiledPath) : ResolutionReport :=
  let pidToMeta :=
    (compiled_paths.map (fun p => (p.policy_id, p.metadata))).reverse
  let st := report.logical_conflicts.foldl (resolveStep pidToMeta)
    ⟨[], [], [], []⟩
  { auto_resolutions := st.autos
    escalations :=
      st.escs ++ report.semantic_conflicts.map (mkEscalationSemantic pidToMeta)
    dominance_rules := st.doms }

/-- First-per-key selection of conflicts, starting from an already-seen key
set: the spec-side description of `seen_rules` deduplication. -/
def dedupConflicts (pidToMeta : List (String × Meta)) :
    List (List String × String × String) → List Conflict → List Conflict
  | _, [] => []
  | seen, c :: cs =>
      if domKeyOf pidToMeta c ∈ seen then dedupConflicts pidToMeta seen cs
      else c :: dedupConflicts pidToMeta (seen ++ [domKeyOf pidToMeta c]) cs

lemma resolve_fold (pidToMeta : List (String × Meta)) :
    ∀ (cs : List Conflict) (st : ResolveState),
      cs.foldl (resolveStep pidToMeta) st =
        ⟨st.autos ++ (cs.filter (rankUnequal pidToMeta)).map
            (mkAutoResolution pidToMeta),
         st.escs ++ (cs.filter (fun c => !(rankUnequal pidToMeta c))).map
            (mkEscalationLogical pidToMeta),
         st.doms ++ (dedupConflicts pidToMeta st.seen
            (cs.filter (rankUnequal pidToMeta))).map (mkDomRule pidToMeta),
         st.seen ++ (dedupConflicts pidToMeta st.seen
            (cs.filter (rankUnequal pidToMeta))).map (domKeyOf pidToMeta)⟩ := by
  intro cs
  induction cs with
  | nil => intro st; simp [dedupConflicts]
  | cons c cs ih =>
      intro st
      rw [List.foldl_cons]
      by_cases hu : rankUnequal pidToMeta c = true
      · by_cases hk : domKeyOf pidToMeta c ∈ st.seen
        · rw [show resolveStep pidToMeta st c =
              { st with autos := st.autos ++ [mkAutoResolution pidToMeta c] }
            from by simp [resolveStep, hu, hk]]
          rw [ih]
          simp [List.filter_cons, hu, hk, dedupConflicts]
        · rw [show resolveStep pidToMeta st c = { st with
              autos := st.autos ++ [mkAutoResolution pidToMeta c],
              doms := st.doms ++ [mkDomRule pidToMeta c],
              seen := st.seen ++ [domKeyOf pidToMeta c] }
            from by simp [resolveStep, hu, hk]]
          rw [ih]
          simp [List.filter_cons, hu, hk, dedupConflicts]
      · rw [show resolveStep pidToMeta st c =
            { st with escs := st.escs ++ [mkEscalationLogical pidToMeta c] }
          from by simp [resolveStep, hu]]
        rw [ih]
        simp [List.filter_cons, hu]

lemma length_filter_partition (p : Conflict → Bool) (l : List Conflict) :
    (l.filter p).length + (l.filter (fun c => !(p c))).length = l.length := by
  induction l with
  | nil => rfl
  | cons c cs ih =>
      by_cases h : p c = true <;>
        simp only [List.filter_cons, h, Bool.not_true, Bool.not_false,
          Bool.not_eq_true, if_true, if_false, List.length_cons] <;>
      · simp only [Bool.not_eq_true] at h
        simp [h, List.length_cons, ← ih]
        omega

lemma dedupConflicts_covers (pidToMeta : List (String × Meta)) :
    ∀ (l : List Conflict) (seen : List (List String × String × String))
      (c : Conflict), c ∈ l →
      domKeyOf pidToMeta c ∈ seen
      ∨ ∃ c2 ∈ dedupConflicts pidToMeta seen l,
          domKeyOf pidToMeta c2 = domKeyOf pidToMeta c := by
  intro l
  induction l with
  | nil => intro seen c h; cases h
  | cons x xs ih =>
      intro seen c h
      rcases List.mem_cons.mp h with rfl | h2
      · by_cases hk : domKeyOf pidToMeta c ∈ seen
        · exact Or.inl hk
        · right
          refine ⟨c, ?_, rfl⟩
          rw [dedupConflicts, if_neg hk]
          exact List.mem_cons_self _ _
      · by_cases hk : domKeyOf pidToMeta x ∈ seen
        · rw [dedupConflicts, if_pos hk]
          exact ih seen c h2
        · rw [dedupConflicts, if_neg hk]
          rcases ih (seen ++ [domKeyOf pidToMeta x]) c h2 with h3 | ⟨c2, hc2, he⟩
          · rcases List.mem_append.mp h3 with h4 | h4
            · exact Or.inl h4
            · right
              exact ⟨x, List.mem_cons_self _ _,
                (List.mem_singleton.mp h4).symm⟩
          · right
            exact ⟨c2, List.mem_cons_of_mem x hc2, he⟩

lemma mkDomRule_eq_of_key (pidToMeta : List (String × Meta))
    (c1 c2 : Conflict)
    (h : domKeyOf pidToMeta c1 = domKeyOf pidToMeta c2) :
    mkDomRule pidToMeta c1 = mkDomRule pidToMeta c2 := by
  unfold domKeyOf at h
  rw [Prod.ext_iff] at h
  obtain ⟨h1, h23⟩ := h
  rw [Prod.ext_iff] at h23
  obtain ⟨h2, h3⟩ := h23
  dsimp only at h1 h2 h3
  unfold mkDomRule
  rw [h1, h2, h3]

/-- C5. Every logical conflict of the report resolves to exactly one
outcome: the auto-resolutions are precisely (and in order) the
unequal-priority logical conflicts, the escalations precisely the
equal-priority logical conflicts followed by the semantic ones, so the two
outcome counts partition the logical conflicts; the dominance rules are the
key-deduplicated unequal-priority conflicts, and every unequal-priority
logical conflict's dominance rule (keyed by sorted pair, winner, relation)
appears among them. -/
theorem resolver_closure (report : ConflictReport)
    (compiled_paths : List CompiledPath) :
    let pidToMeta :=
      (compiled_paths.map (fun p => (p.policy_id, p.metadata))).reverse
    let res := resolve_conflicts report compiled_paths
    res.auto_resolutions
      = (report.logical_conflicts.filter (rankUnequal pidToMeta)).map
          (mkAutoResolution pidToMeta)
    ∧ res.escalations
      = (report.logical_conflicts.filter
          (fun c => !(rankUnequal pidToMeta c))).map
            (mkEscalationLogical pidToMeta)
        ++ report.semantic_conflicts.map (mkEscalationSemantic pidToMeta)
    ∧ res.dominance_rules
      = (dedupConflicts pidToMeta []
          (report.logical_conflicts.filter (rankUnequal pidToMeta))).map
            (mkDomRule pidToMeta)
    ∧ res.auto_resolutions.length
        + ((report.logical_conflicts.filter
            (fun c => !(rankUnequal pidToMeta c))).map
              (mkEscalationLogical pidToMeta)).length
      = report.logical_conflicts.length
    ∧ ∀ c ∈ report.logical_conflicts, rankUnequal pidToMeta c = true →
        mkDomRule pidToMeta c ∈ res.dominance_rules := by
  intro pidToMeta res
  have hfold := resolve_fold pidToMeta report.logical_conflicts ⟨[], [], [], []⟩
  have h1 : res.auto_resolutions
      = (report.logical_conflicts.filter (rankUnequal pidToMeta)).map
          (mkAutoResolution pidToMeta) := by
    show (resolve_conflicts report compiled_paths).auto_resolutions = _
    simp only [resolve_conflicts]
    rw [hfold]
    simp
  have h2 : res.escalations
      = (report.logical_conflicts.filter
          (fun c => !(rankUnequal pidToMeta c))).map
            (mkEscalationLogical pidToMeta)
        ++ report.semantic_conflicts.map (mkEscalationSemantic pidToMeta) := by
    show (resolve_conflicts report compiled_paths).escalations = _
    simp only [resolve_conflicts]
    rw [hfold]
    simp
  have h3 : res.dominance_rules
      = (dedupConflicts pidToMeta []
          (report.logical_conflicts.filter (rankUnequal pidToMeta))).map
            (mkDomRule pidToMeta) := by
    show (resolve_conflicts report compiled_paths).dominance_rules = _
    simp only [resolve_conflicts]
    rw [hfold]
    simp
  refine ⟨h1, h2, h3, ?_, ?_⟩
  · rw [h1, List.length_map, List.length_map]
    exact length_filter_partition (rankUnequal pidToMeta)
      report.logical_conflicts
  · intro c hc hu
    rw [h3]
    have hmemf : c ∈ report.logical_conflicts.filter (rankUnequal pidToMeta) :=
      List.mem_filter.mpr ⟨hc, hu⟩
    rcases dedupConflicts_covers pidToMeta _ [] c hmemf with h4 | ⟨c2, hc2, he⟩
    · cases h4
    · exact List.mem_map.mpr ⟨c2, hc2, mkDomRule_eq_of_key pidToMeta c2 c he⟩

/-- Witness for `resolver_closure`: a single logical conflict between a
regulatory-priority and a company-priority policy is auto-resolved and its
dominance rule is emitted. -/
theorem resolver_closure_witness :
    mkDomRule []
      ⟨("P1", "P2"), ("a", "b"), [], some ⟨some "regulatory", [], none⟩,
        some ⟨some "company", [], none⟩⟩
      ∈ (resolve_conflicts
          ⟨[⟨("P1", "P2"), ("a", "b"), [], some ⟨some "regulatory", [], none⟩,
              some ⟨some "company", [], none⟩⟩], []⟩ []).dominance_rules := by
  exact (resolver_closure
    ⟨[⟨("P1", "P2"), ("a", "b"), [], some ⟨some "regulatory", [], none⟩,
        some ⟨some "company", [], none⟩⟩], []⟩ []).2.2.2.2
    ⟨("P1", "P2"), ("a", "b"), [], some ⟨some "regulatory", [], none⟩,
      some ⟨some "company", [], none⟩⟩
    (List.mem_singleton.mpr rfl) (by rfl)

/-- C1. For every post-gen report the compliance score is
`S = 0.60·smt + 0.30·judge + 0.10·coverage` (the regex sub-result contributes
nothing: any two reports that differ only in their regex result receive the
same S), and the routed action is: escalate whenever the regex gate failed,
regardless of S; otherwise pass iff `S ≥ 0.95` (so `S = 0.95` exactly passes),
auto-correct iff `0.85 ≤ S < 0.95`, regenerate iff `0.70 ≤ S < 0.85`, and
escalate iff `S < 0.70`. -/
theorem scorer_weighted_score_and_routing (report : PostGenReport) :
    compute_compliance_score report =
      60/100 * report.smt_result.score + 30/100 * report.judge_result.score
        + 10/100 * report.coverage_result.score
    ∧ (∀ rr : RegexResult,
        compute_compliance_score { report with regex_result := rr } =
          compute_compliance_score report)
    ∧ (report.regex_result.passed = false →
        determine_action (compute_compliance_score report) report =
          ComplianceAction.escalate)
    ∧ (report.regex_result.passed = true →
        (let S := compute_compliance_score report
         (S ≥ 95/100 → determine_action S report = ComplianceAction.pass)
         ∧ (85/100 ≤ S ∧ S < 95/100 →
              determine_action S report = ComplianceAction.auto_correct)
         ∧ (70/100 ≤ S ∧ S < 85/100 →
              determine_action S report = ComplianceAction.regenerate)
         ∧ (S < 70/100 →
              determine_action S report = ComplianceAction.escalate))) := by
  refine ⟨rfl, fun rr => rfl, fun hfail => ?_, fun hpass => ?_⟩
  · simp [determine_action, hfail]
  · refine ⟨fun h => ?_, fun h => ?_, fun h => ?_, fun h => ?_⟩
    · simp [determine_action, hpass, THRESHOLD_PASS, h]
    · have hlt : ¬ compute_compliance_score report ≥ 95/100 := not_le.mpr h.2
      simp [determine_action, hpass, THRESHOLD_PASS, THRESHOLD_AUTO_CORRECT,
        hlt, h.1]
    · have hlt : ¬ compute_compliance_score report ≥ 95/100 :=
        not_le.mpr (lt_trans h.2 (by norm_num))
      have hlt2 : ¬ compute_compliance_score report ≥ 85/100 := not_le.mpr h.2
      simp [determine_action, hpass, THRESHOLD_PASS, THRESHOLD_AUTO_CORRECT,
        THRESHOLD_REGENERATE, hlt, hlt2, h.1]
    · have h1 : ¬ compute_compliance_score report ≥ 95/100 :=
        not_le.mpr (lt_trans h (by norm_num))
      have h2 : ¬ compute_compliance_score report ≥ 85/100 :=
        not_le.mpr (lt_trans h (by norm_num))
      have h3 : ¬ compute_compliance_score report ≥ 70/100 := not_le.mpr h
      simp [determine_action, hpass, THRESHOLD_PASS, THRESHOLD_AUTO_CORRECT,
        THRESHOLD_REGENERATE, h1, h2, h3]

/-- Witness for `scorer_weighted_score_and_routing`: a concrete report whose
score is exactly `0.95` (smt 1, judge 1, coverage 0.5) with the regex gate
passed routes to `pass`. -/
theorem scorer_weighted_score_and_routing_witness :
    determine_action
      (compute_compliance_score
        { regex_result := ⟨true, [], 1⟩
          smt_result := ⟨true, [], 1⟩
          judge_result := ⟨1, []⟩
          coverage_result := ⟨1/2, [], []⟩ })
      { regex_result := ⟨true, [], 1⟩
        smt_result := ⟨true, [], 1⟩
        judge_result := ⟨1, []⟩
        coverage_result := ⟨1/2, [], []⟩ } = ComplianceAction.pass := by
  have h := (scorer_weighted_score_and_routing
    { regex_result := ⟨true, [], 1⟩
      smt_result := ⟨true, [], 1⟩
      judge_result := ⟨1, []⟩
      coverage_result := ⟨1/2, [], []⟩ }).2.2.2 rfl
  exact h.1 (by norm_num [compute_compliance_score, W_SMT, W_JUDGE, W_COVERAGE])

end PolicyLLM
